import Mathlib

/-!
Verification of the calibration core of the spatial pedagogy toolbox.

The development shallowly embeds the three core modules of the Python
package `calibration_tool`:

* `model.py`   — the landmark (point-pair) registry `CalibrationModel`;
* `analysis.py`— `calculate_affine_transform`, the least-squares affine
  estimator and its residual statistics;
* `image.py`   — `remove_background` (flood-fill background segmentation)
  and `auto_crop` (bounding-box autocrop).

Python lists become Lean `List`s, NumPy float arithmetic is modelled as
exact real arithmetic, and uint8 pixel channels are modelled as integers.
Functions that raise exceptions are modelled with `Except`.
-/

namespace CalibrationTool

/-! ## The landmark registry (`calibration_tool/model.py`)

The registry state consists of the two landmark lists and the action
history; landmark coordinates are canvas pixel coordinates, modelled as
integer pairs.  The Python methods mutate the model in place and
(for the `add` methods) return a boolean; here each operation returns
the new state, paired with that boolean for the `add` operations. -/

structure CalibrationModel where
  landmarks_csv : List (ℤ × ℤ)
  landmarks_image : List (ℤ × ℤ)
  action_history : List String
  deriving Repr, DecidableEq

/-- `CalibrationModel.__init__`: all landmark data starts empty. -/
def CalibrationModel.init : CalibrationModel :=
  { landmarks_csv := [], landmarks_image := [], action_history := [] }

/-- `clear_landmarks`: resets all landmark data and the action history. -/
def clear_landmarks (m : CalibrationModel) : CalibrationModel :=
  { m with landmarks_csv := [], landmarks_image := [], action_history := [] }

/-- `add_image_landmark`: appends to `landmarks_image` and logs `"image"`
when the list holds fewer than 12 entries (returning `true`), otherwise
leaves the model unchanged and returns `false`. -/
def add_image_landmark (m : CalibrationModel) (point : ℤ × ℤ) :
    CalibrationModel × Bool :=
  if m.landmarks_image.length < 12 then
    ({ m with landmarks_image := m.landmarks_image ++ [point],
              action_history := m.action_history ++ ["image"] }, true)
  else (m, false)

/-- `add_csv_landmark`: appends to `landmarks_csv` and logs `"csv"` when
the list holds fewer than 12 entries, otherwise rejects. -/
def add_csv_landmark (m : CalibrationModel) (point : ℤ × ℤ) :
    CalibrationModel × Bool :=
  if m.landmarks_csv.length < 12 then
    ({ m with landmarks_csv := m.landmarks_csv ++ [point],
              action_history := m.action_history ++ ["csv"] }, true)
  else (m, false)

/-- `undo_last_landmark`: pops the last action from the history and removes
the last point of the list that action targeted (guarded, as in the
source, by that list being non-empty). -/
def undo_last_landmark (m : CalibrationModel) : CalibrationModel :=
  match m.action_history.getLast? with
  | none => m
  | some last_action =>
    let m' := { m with action_history := m.action_history.dropLast }
    if last_action = "image" ∧ m.landmarks_image ≠ [] then
      { m' with landmarks_image := m.landmarks_image.dropLast }
    else if last_action = "csv" ∧ m.landmarks_csv ≠ [] then
      { m' with landmarks_csv := m.landmarks_csv.dropLast }
    else m'

/-- `get_landmark_pairs`: the first `min` entries of each list. -/
def get_landmark_pairs (m : CalibrationModel) :
    List (ℤ × ℤ) × List (ℤ × ℤ) :=
  let num_pairs := min m.landmarks_image.length m.landmarks_csv.length
  (m.landmarks_image.take num_pairs, m.landmarks_csv.take num_pairs)

/-- Folding `add_image_landmark` over a list of points, recording each
returned acceptance flag (used to state the add-13-landmarks scenario). -/
def addAllImage (m : CalibrationModel) (ps : List (ℤ × ℤ)) :
    CalibrationModel × List Bool :=
  ps.foldl
    (fun acc p =>
      let r := add_image_landmark acc.1 p
      (r.1, acc.2 ++ [r.2]))
    (m, [])

/-- The model states reachable from the initial empty state by the four
mutating operations. -/
inductive Reachable : CalibrationModel → Prop
  | init : Reachable CalibrationModel.init
  | add_image (m : CalibrationModel) (p : ℤ × ℤ) :
      Reachable m → Reachable (add_image_landmark m p).1
  | add_csv (m : CalibrationModel) (p : ℤ × ℤ) :
      Reachable m → Reachable (add_csv_landmark m p).1
  | undo (m : CalibrationModel) :
      Reachable m → Reachable (undo_last_landmark m)
  | clear (m : CalibrationModel) :
      Reachable m → Reachable (clear_landmarks m)

/-- Thirteen distinct landmark points, for the overflow scenario. -/
def thirteenPoints : List (ℤ × ℤ) :=
  (List.range 13).map (fun k => ((k : ℤ), (k : ℤ)))

/-- A registry state whose image-landmark list is at capacity. -/
def fullModel : CalibrationModel :=
  { landmarks_csv := [],
    landmarks_image := (List.range 12).map (fun k => ((k : ℤ), 0)),
    action_history := List.replicate 12 "image" }

/-- A small reachable registry state: one image add, then one csv add. -/
def witnessState : CalibrationModel :=
  (add_csv_landmark (add_image_landmark CalibrationModel.init (1, 2)).1 (3, 4)).1

/-- C8: an `add` appends the point and records the set id in the action
history exactly when that set holds fewer than 12 entries; an add to a
set holding 12 entries returns `false` and leaves the whole model (both
sets and the log) unchanged; adding 13 landmarks to one set accepts the
first 12 and rejects the 13th. -/
theorem add_landmark_capacity (m : CalibrationModel) (p : ℤ × ℤ) :
    (m.landmarks_image.length < 12 →
      add_image_landmark m p =
        ({ m with landmarks_image := m.landmarks_image ++ [p],
                  action_history := m.action_history ++ ["image"] }, true)) ∧
    (m.landmarks_image.length = 12 → add_image_landmark m p = (m, false)) ∧
    (m.landmarks_csv.length < 12 →
      add_csv_landmark m p =
        ({ m with landmarks_csv := m.landmarks_csv ++ [p],
                  action_history := m.action_history ++ ["csv"] }, true)) ∧
    (m.landmarks_csv.length = 12 → add_csv_landmark m p = (m, false)) ∧
    (addAllImage CalibrationModel.init thirteenPoints).1.landmarks_image
        = thirteenPoints.take 12 ∧
    (addAllImage CalibrationModel.init thirteenPoints).2
        = List.replicate 12 true ++ [false] := by
  refine ⟨?_, ?_, ?_, ?_, ?_, ?_⟩
  · intro h; simp [add_image_landmark, h]
  · intro h; simp [add_image_landmark, h]
  · intro h; simp [add_csv_landmark, h]
  · intro h; simp [add_csv_landmark, h]
  · decide
  · decide

/-- Witness for C8: a capacity-full model rejects an add unchanged, and
the empty model accepts one. -/
theorem add_landmark_capacity_witness :
    add_image_landmark fullModel (99, 99) = (fullModel, false) ∧
    add_image_landmark CalibrationModel.init (1, 2) =
      ({ CalibrationModel.init with
          landmarks_image := [(1, 2)],
          action_history := ["image"] }, true) := by
  constructor
  · exact (add_landmark_capacity fullModel (99, 99)).2.1 (by decide)
  · have h := (add_landmark_capacity CalibrationModel.init (1, 2)).1 (by decide)
    simpa using h

/-- C9: `undo_last_landmark` undoes exactly the most recent successful
addition, whichever set it targeted (strict LIFO across both sets), and
is a no-op on an empty action log. -/
theorem undo_reverses_add (m : CalibrationModel) (p : ℤ × ℤ) :
    (m.landmarks_image.length < 12 →
        undo_last_landmark (add_image_landmark m p).1 = m) ∧
    (m.landmarks_csv.length < 12 →
        undo_last_landmark (add_csv_landmark m p).1 = m) ∧
    (m.action_history = [] → undo_last_landmark m = m) := by
  obtain ⟨csv, img, hist⟩ := m
  refine ⟨?_, ?_, ?_⟩
  · intro h
    simp [add_image_landmark, h, undo_last_landmark]
  · intro h
    simp [add_csv_landmark, h, undo_last_landmark]
  · intro h
    simp at h
    simp [undo_last_landmark, h]

/-- Witness for C9: undoing a fresh image add restores the empty model,
and undo on the empty model is a no-op. -/
theorem undo_reverses_add_witness :
    undo_last_landmark (add_image_landmark CalibrationModel.init (3, 4)).1 =
      CalibrationModel.init ∧
    undo_last_landmark CalibrationModel.init = CalibrationModel.init :=
  ⟨(undo_reverses_add CalibrationModel.init (3, 4)).1 (by decide),
   (undo_reverses_add CalibrationModel.init (3, 4)).2.2 (by decide)⟩

/-- Inductive invariant of the registry: the action history is exactly as
long as the two landmark lists together, the number of `"image"` (resp.
`"csv"`) entries matches the corresponding list, and every history entry
is one of the two tags. -/
theorem reachable_counts (m : CalibrationModel) (h : Reachable m) :
    m.action_history.length =
      m.landmarks_image.length + m.landmarks_csv.length ∧
    m.action_history.count "image" = m.landmarks_image.length ∧
    m.action_history.count "csv" = m.landmarks_csv.length ∧
    (∀ x ∈ m.action_history, x = "image" ∨ x = "csv") := by
  induction h with
  | init => simp [CalibrationModel.init]
  | add_image m p hm ih =>
      obtain ⟨h1, h2, h3, h4⟩ := ih
      by_cases h12 : m.landmarks_image.length < 12
      · refine ⟨?_, ?_, ?_, ?_⟩
        · simp [add_image_landmark, h12]; omega
        · simp [add_image_landmark, h12, h2]
        · simp [add_image_landmark, h12, h3]
        · simp only [add_image_landmark, if_pos h12]
          intro x hx
          rcases List.mem_append.mp hx with hx | hx
          · exact h4 x hx
          · simp at hx; left; exact hx
      · simpa [add_image_landmark, h12] using ⟨h1, h2, h3, h4⟩
  | add_csv m p hm ih =>
      obtain ⟨h1, h2, h3, h4⟩ := ih
      by_cases h12 : m.landmarks_csv.length < 12
      · refine ⟨?_, ?_, ?_, ?_⟩
        · simp [add_csv_landmark, h12]; omega
        · simp [add_csv_landmark, h12, h2]
        · simp [add_csv_landmark, h12, h3]
        · simp only [add_csv_landmark, if_pos h12]
          intro x hx
          rcases List.mem_append.mp hx with hx | hx
          · exact h4 x hx
          · simp at hx; right; exact hx
      · simpa [add_csv_landmark, h12] using ⟨h1, h2, h3, h4⟩
  | clear m hm ih => simp [clear_landmarks]
  | undo m hm ih =>
      obtain ⟨h1, h2, h3, h4⟩ := ih
      rcases histEq : m.action_history.getLast? with _ | a
      · rw [List.getLast?_eq_none_iff] at histEq
        have hres : undo_last_landmark m = m := by
          simp [undo_last_landmark, histEq]
        rw [hres]
        exact ⟨h1, h2, h3, h4⟩
      · have hne : m.action_history ≠ [] := by
          intro hnil; rw [hnil] at histEq; simp at histEq
        have hlastEq : m.action_history.getLast hne = a := by
          have := List.getLast?_eq_getLast m.action_history hne
          rw [histEq] at this; exact (Option.some_injective _ this.symm)
        have hdecomp : m.action_history.dropLast ++ [a] = m.action_history := by
          rw [← hlastEq]; exact List.dropLast_append_getLast hne
        have hmemLast : a ∈ m.action_history := by
          rw [← hdecomp]; exact List.mem_append_right _ (by simp)
        have hmemDrop : ∀ x ∈ m.action_history.dropLast, x ∈ m.action_history := by
          intro x hx; rw [← hdecomp]; exact List.mem_append_left _ hx
        have hlenDrop : m.action_history.dropLast.length + 1 =
            m.action_history.length := by
          conv_rhs => rw [← hdecomp]
          simp
        rcases h4 a hmemLast with htag | htag
        · subst htag
          have hcnt : m.action_history.dropLast.count "image" + 1 =
              m.action_history.count "image" := by
            conv_rhs => rw [← hdecomp]
            simp
          have hcnt2 : m.action_history.dropLast.count "csv" =
              m.action_history.count "csv" := by
            conv_rhs => rw [← hdecomp]
            simp
          have himgpos : 0 < m.landmarks_image.length := by omega
          have himg : m.landmarks_image ≠ [] := List.length_pos.mp himgpos
          have hres : undo_last_landmark m =
              { m with action_history := m.action_history.dropLast,
                       landmarks_image := m.landmarks_image.dropLast } := by
            simp [undo_last_landmark, histEq, himg]
          rw [hres]
          refine ⟨?_, ?_, ?_, fun x hx => h4 x (hmemDrop x hx)⟩ <;>
            simp [List.length_dropLast] <;> omega
        · subst htag
          have hcnt : m.action_history.dropLast.count "csv" + 1 =
              m.action_history.count "csv" := by
            conv_rhs => rw [← hdecomp]
            simp
          have hcnt2 : m.action_history.dropLast.count "image" =
              m.action_history.count "image" := by
            conv_rhs => rw [← hdecomp]
            simp
          have hcsvpos : 0 < m.landmarks_csv.length := by omega
          have hcsv : m.landmarks_csv ≠ [] := List.length_pos.mp hcsvpos
          have hres : undo_last_landmark m =
              { m with action_history := m.action_history.dropLast,
                       landmarks_csv := m.landmarks_csv.dropLast } := by
            simp [undo_last_landmark, histEq, hcsv]
          rw [hres]
          refine ⟨?_, ?_, ?_, fun x hx => h4 x (hmemDrop x hx)⟩ <;>
            simp [List.length_dropLast] <;> omega

/-- C10: in every registry state reachable from the initial state, the
action history length equals the total number of stored landmarks, each
tag is logged exactly as often as its list is long, and consequently the
list targeted by the pending `undo_last_landmark` is never empty. -/
theorem registry_invariant (m : CalibrationModel) (h : Reachable m) :
    m.action_history.length =
      m.landmarks_image.length + m.landmarks_csv.length ∧
    m.action_history.count "image" = m.landmarks_image.length ∧
    m.action_history.count "csv" = m.landmarks_csv.length ∧
    (m.action_history.getLast? = some "image" → m.landmarks_image ≠ []) ∧
    (m.action_history.getLast? = some "csv" → m.landmarks_csv ≠ []) := by
  obtain ⟨h1, h2, h3, _⟩ := reachable_counts m h
  refine ⟨h1, h2, h3, ?_, ?_⟩
  · intro hlast
    have hmem : "image" ∈ m.action_history := by
      have hne : m.action_history ≠ [] := by
        intro hnil; rw [hnil] at hlast; simp at hlast
      have := List.getLast?_eq_getLast m.action_history hne
      rw [hlast] at this
      have heq := Option.some_injective _ this.symm
      rw [← heq]; exact List.getLast_mem hne
    have : 0 < m.landmarks_image.length := by
      rw [← h2]; exact List.count_pos_iff.mpr hmem
    exact List.length_pos.mp this
  · intro hlast
    have hmem : "csv" ∈ m.action_history := by
      have hne : m.action_history ≠ [] := by
        intro hnil; rw [hnil] at hlast; simp at hlast
      have := List.getLast?_eq_getLast m.action_history hne
      rw [hlast] at this
      have heq := Option.some_injective _ this.symm
      rw [← heq]; exact List.getLast_mem hne
    have : 0 < m.landmarks_csv.length := by
      rw [← h3]; exact List.count_pos_iff.mpr hmem
    exact List.length_pos.mp this

/-- Witness for C10: the invariant at a concrete reachable two-add state. -/
theorem registry_invariant_witness :
    witnessState.action_history.length =
      witnessState.landmarks_image.length +
        witnessState.landmarks_csv.length ∧
    witnessState.action_history.count "image" =
      witnessState.landmarks_image.length ∧
    witnessState.action_history.count "csv" =
      witnessState.landmarks_csv.length ∧
    (witnessState.action_history.getLast? = some "image" →
      witnessState.landmarks_image ≠ []) ∧
    (witnessState.action_history.getLast? = some "csv" →
      witnessState.landmarks_csv ≠ []) :=
  registry_invariant witnessState
    (Reachable.add_csv _ _ (Reachable.add_image _ _ Reachable.init))

/-! ## The affine estimator (`calibration_tool/analysis.py`)

`calculate_affine_transform` pads both point lists with a homogeneous
1-column, solves the linear least-squares problem `A·x ≈ b` with
`np.linalg.lstsq`, forces the bottom row of the transposed solution to
`[0, 0, 1]`, and reports per-pair Euclidean residuals with their
min/max/mean/population-std statistics.

NumPy's double-precision arithmetic is modelled as exact real
arithmetic.  `np.linalg.lstsq` itself is external library code; it is
modelled by its documented contract (`IsLstsqSol`): the returned
coefficient matrix minimises the total squared residual and, among
minimisers, the Frobenius norm.  The estimator is therefore parametrised
by a `solve` function, constrained by `IsLstsqSol` where a claim needs
it.  The `computation_time` entry (wall-clock duration) is outside the
embedding. -/

/-- A 2D point with real coordinates. -/
abbrev Pt := ℝ × ℝ

/-- `pad`: the homogeneous row `[x, y, 1]` of a point. -/
def padRow (p : Pt) : Fin 3 → ℝ := ![p.1, p.2, 1]

/-- One row of the product `A·x`: a padded row times the coefficient
matrix. -/
def rowMul (r : Fin 3 → ℝ) (x : Fin 3 → Fin 3 → ℝ) : Fin 3 → ℝ :=
  fun j => ∑ k, r k * x k j

/-- The total squared residual `‖A·x − b‖²` of the least-squares problem
built from source rows `pad(src)` and target rows `pad(dst)`. -/
def objective (src dst : List Pt) (x : Fin 3 → Fin 3 → ℝ) : ℝ :=
  ((src.zip dst).map
    (fun pq => ∑ j, (rowMul (padRow pq.1) x j - padRow pq.2 j) ^ 2)).sum

/-- Squared Frobenius norm of a 3×3 coefficient matrix. -/
def frobSq (x : Fin 3 → Fin 3 → ℝ) : ℝ := ∑ k, ∑ j, x k j ^ 2

/-- The documented contract of `np.linalg.lstsq A b`: the solution
minimises `‖A·x − b‖²`, and among minimisers has least norm. -/
def IsLstsqSol (src dst : List Pt) (x : Fin 3 → Fin 3 → ℝ) : Prop :=
  (∀ y, objective src dst x ≤ objective src dst y) ∧
  (∀ y, objective src dst y = objective src dst x → frobSq x ≤ frobSq y)

/-- The result dictionary of `calculate_affine_transform` (minus the
wall-clock `computation_time`). -/
structure CalibResult where
  affine_matrix : Fin 3 → Fin 3 → ℝ
  errors : List ℝ
  min_error : ℝ
  max_error : ℝ
  mean_error : ℝ
  std_error : ℝ

/-- The error raised by the estimator (`ValueError` in the source, named
`InsufficientPointsError` by the specification). -/
inductive CalibError
  | insufficientPoints
  deriving DecidableEq

/-- `np.min` of a list (`d` is returned on the empty list, which `np.min`
rejects; no claim evaluates it there). -/
def listMin {α : Type} [LinearOrder α] (d : α) : List α → α
  | [] => d
  | h :: t => t.foldl min h

/-- `np.max` of a list. -/
def listMax {α : Type} [LinearOrder α] (d : α) : List α → α
  | [] => d
  | h :: t => t.foldl max h

/-- Euclidean distance between two points. -/
noncomputable def euclDist (a b : Pt) : ℝ :=
  Real.sqrt ((a.1 - b.1) ^ 2 + (a.2 - b.2) ^ 2)

/-- `affine_matrix_3x3 = np.vstack([x.T[:2, :], [0, 0, 1]])`: transpose
the solver output and force the bottom row to exactly `[0, 0, 1]`. -/
def affineOf (x : Fin 3 → Fin 3 → ℝ) : Fin 3 → Fin 3 → ℝ :=
  fun i j => if i = 2 then ![(0 : ℝ), 0, 1] j else x j i

/-- `transformed_points = np.dot(A, x)[:, 0:2]`: the padded source rows
times the raw solver output, first two columns. -/
def transformedPoints (x : Fin 3 → Fin 3 → ℝ) (image_points : List Pt) :
    List Pt :=
  image_points.map (fun p => (rowMul (padRow p) x 0, rowMul (padRow p) x 1))

/-- `errors = np.linalg.norm(transformed_points - csv_points, axis=1)`. -/
noncomputable def pairErrors (x : Fin 3 → Fin 3 → ℝ)
    (image_points csv_points : List Pt) : List ℝ :=
  ((transformedPoints x image_points).zip csv_points).map
    (fun tq => euclDist tq.1 tq.2)

/-- The result dictionary built in the non-error branch of
`calculate_affine_transform`. -/
noncomputable def calcResult (solve : List Pt → List Pt → (Fin 3 → Fin 3 → ℝ))
    (image_points csv_points : List Pt) : CalibResult :=
  let x := solve image_points csv_points
  let errors := pairErrors x image_points csv_points
  let mean_error := errors.sum / (errors.length : ℝ)
  { affine_matrix := affineOf x,
    errors := errors,
    min_error := listMin 0 errors,
    max_error := listMax 0 errors,
    mean_error := mean_error,
    std_error :=
      Real.sqrt ((errors.map (fun e => (e - mean_error) ^ 2)).sum /
        (errors.length : ℝ)) }

/-- `calculate_affine_transform(image_points, csv_points)`, parametrised
by the least-squares solver. -/
noncomputable def calculate_affine_transform
    (solve : List Pt → List Pt → (Fin 3 → Fin 3 → ℝ))
    (image_points csv_points : List Pt) : Except CalibError CalibResult :=
  if image_points.length < 3 then .error .insufficientPoints
  else .ok (calcResult solve image_points csv_points)

/-- A stand-in solver used to witness solver-independent claims. -/
def zeroSolver : List Pt → List Pt → (Fin 3 → Fin 3 → ℝ) :=
  fun _ _ => fun _ _ => 0

/-- The reference landmark triple of the calibration check scenario. -/
def refPoints : List Pt := [(10, 10), (20, 10), (10, 20)]

/-- The corresponding source points, `2·reference + (10, 20)`. -/
def srcPoints : List Pt := [(30, 40), (50, 40), (30, 60)]

/-- C2: with fewer than 3 point pairs the estimator fails with the
insufficient-points error, regardless of the coordinate values. -/
theorem estimate_insufficient_points
    (solve : List Pt → List Pt → (Fin 3 → Fin 3 → ℝ))
    (image_points csv_points : List Pt)
    (_hlen : image_points.length = csv_points.length)
    (h3 : image_points.length < 3) :
    calculate_affine_transform solve image_points csv_points =
      Except.error CalibError.insufficientPoints := by
  simp [calculate_affine_transform, h3]

/-- Witness for C2: two pairs are rejected. -/
theorem estimate_insufficient_points_witness :
    calculate_affine_transform zeroSolver
      [((10 : ℝ), (10 : ℝ)), (20, 10)] [((30 : ℝ), (40 : ℝ)), (50, 40)] =
      Except.error CalibError.insufficientPoints :=
  estimate_insufficient_points zeroSolver _ _ (by simp) (by simp)

/-- C4: for every valid input the bottom row of the returned matrix is
exactly `[0, 0, 1]`, whatever matrix the least-squares solver returned. -/
theorem estimate_bottom_row
    (solve : List Pt → List Pt → (Fin 3 → Fin 3 → ℝ))
    (image_points csv_points : List Pt)
    (_hlen : image_points.length = csv_points.length)
    (h3 : 3 ≤ image_points.length) :
    ∃ res, calculate_affine_transform solve image_points csv_points =
        Except.ok res ∧
      res.affine_matrix 2 0 = 0 ∧ res.affine_matrix 2 1 = 0 ∧
      res.affine_matrix 2 2 = 1 := by
  have hnot : ¬ image_points.length < 3 := by omega
  unfold calculate_affine_transform
  rw [if_neg hnot]
  exact ⟨_, rfl, by simp [calcResult, affineOf], by simp [calcResult, affineOf],
    by simp [calcResult, affineOf]⟩

/-- Witness for C4: bottom row `[0, 0, 1]` at a concrete input with an
arbitrary (zero) solver output. -/
theorem estimate_bottom_row_witness :
    Except.map
      (fun r : CalibResult =>
        (r.affine_matrix 2 0, r.affine_matrix 2 1, r.affine_matrix 2 2))
      (calculate_affine_transform zeroSolver refPoints srcPoints) =
      Except.ok ((0 : ℝ), (0 : ℝ), (1 : ℝ)) := by
  obtain ⟨res, heq, h1, h2, h3⟩ :=
    estimate_bottom_row zeroSolver refPoints srcPoints (by simp [refPoints, srcPoints])
      (by simp [refPoints])
  rw [heq]
  simp [Except.map, h1, h2, h3]

/-- Applying a homogeneous 3×3 transform to a point written as the column
`[x, y, 1]`, keeping the first two output coordinates. -/
def applyAffine (M : Fin 3 → Fin 3 → ℝ) (p : Pt) : Pt :=
  (∑ k, M 0 k * padRow p k, ∑ k, M 1 k * padRow p k)

theorem foldl_min_le {α : Type} [LinearOrder α] (l : List α) (a : α) :
    l.foldl min a ≤ a ∧ ∀ x ∈ l, l.foldl min a ≤ x := by
  induction l generalizing a with
  | nil => simp
  | cons h t ih =>
      refine ⟨?_, ?_⟩
      · exact le_trans (ih (min a h)).1 (min_le_left a h)
      · intro x hx
        rcases List.mem_cons.mp hx with rfl | hx
        · exact le_trans (ih (min a x)).1 (min_le_right a x)
        · exact (ih (min a h)).2 x hx

theorem foldl_min_mem {α : Type} [LinearOrder α] (l : List α) (a : α) :
    l.foldl min a ∈ a :: l := by
  induction l generalizing a with
  | nil => simp
  | cons h t ih =>
      rcases List.mem_cons.mp (ih (min a h)) with heq | hmem
      · rcases min_choice a h with hc | hc
        · rw [List.foldl_cons, heq, hc]
          exact List.mem_cons_self a _
        · rw [List.foldl_cons, heq, hc]
          exact List.mem_cons_of_mem _ (List.mem_cons_self h _)
      · rw [List.foldl_cons]
        exact List.mem_cons_of_mem _ (List.mem_cons_of_mem _ hmem)

theorem foldl_max_le {α : Type} [LinearOrder α] (l : List α) (a : α) :
    a ≤ l.foldl max a ∧ ∀ x ∈ l, x ≤ l.foldl max a := by
  induction l generalizing a with
  | nil => simp
  | cons h t ih =>
      refine ⟨?_, ?_⟩
      · exact le_trans (le_max_left a h) (ih (max a h)).1
      · intro x hx
        rcases List.mem_cons.mp hx with rfl | hx
        · exact le_trans (le_max_right a x) (ih (max a x)).1
        · exact (ih (max a h)).2 x hx

theorem foldl_max_mem {α : Type} [LinearOrder α] (l : List α) (a : α) :
    l.foldl max a ∈ a :: l := by
  induction l generalizing a with
  | nil => simp
  | cons h t ih =>
      rcases List.mem_cons.mp (ih (max a h)) with heq | hmem
      · rcases max_choice a h with hc | hc
        · rw [List.foldl_cons, heq, hc]
          exact List.mem_cons_self a _
        · rw [List.foldl_cons, heq, hc]
          exact List.mem_cons_of_mem _ (List.mem_cons_self h _)
      · rw [List.foldl_cons]
        exact List.mem_cons_of_mem _ (List.mem_cons_of_mem _ hmem)

/-- `np.min` characterisation on a non-empty list: it is an element and a
lower bound. -/
theorem listMin_spec {α : Type} [LinearOrder α] (d : α) (l : List α)
    (hne : l ≠ []) : listMin d l ∈ l ∧ ∀ x ∈ l, listMin d l ≤ x := by
  cases l with
  | nil => exact absurd rfl hne
  | cons h t =>
      refine ⟨foldl_min_mem t h, ?_⟩
      intro x hx
      rcases List.mem_cons.mp hx with rfl | hx
      · exact (foldl_min_le t x).1
      · exact (foldl_min_le t h).2 x hx

/-- `np.max` characterisation on a non-empty list: it is an element and an
upper bound. -/
theorem listMax_spec {α : Type} [LinearOrder α] (d : α) (l : List α)
    (hne : l ≠ []) : listMax d l ∈ l ∧ ∀ x ∈ l, x ≤ listMax d l := by
  cases l with
  | nil => exact absurd rfl hne
  | cons h t =>
      refine ⟨foldl_max_mem t h, ?_⟩
      intro x hx
      rcases List.mem_cons.mp hx with rfl | hx
      · exact (foldl_max_le t x).1
      · exact (foldl_max_le t h).2 x hx

/-- Applying the returned (transposed, bottom-row-forced) matrix to a
homogeneous point reproduces the first two columns of `A·x` used for the
residuals. -/
theorem applyAffine_affineOf (x : Fin 3 → Fin 3 → ℝ) (p : Pt) :
    applyAffine (affineOf x) p =
      (rowMul (padRow p) x 0, rowMul (padRow p) x 1) := by
  unfold applyAffine affineOf rowMul
  refine Prod.ext ?_ ?_ <;>
    · dsimp only
      refine Finset.sum_congr rfl ?_
      intro k _
      rw [if_neg (by decide), mul_comm]

/-- The residual list is the pointwise Euclidean distance between the
transformed source points and the target points. -/
theorem pairErrors_eq_zipWith (x : Fin 3 → Fin 3 → ℝ)
    (image_points csv_points : List Pt) :
    pairErrors x image_points csv_points =
      List.zipWith (fun p q => euclDist (applyAffine (affineOf x) p) q)
        image_points csv_points := by
  unfold pairErrors transformedPoints
  induction image_points generalizing csv_points with
  | nil => simp
  | cons a l ih =>
      cases csv_points with
      | nil => simp
      | cons b m => simp [ih, applyAffine_affineOf]

/-- C3: on a valid input the estimator succeeds, the error list has one
entry per pair, entry `i` is the Euclidean distance from the returned
transform applied to the `i`-th point of the first (source/design-side)
list, in homogeneous form `[x, y, 1]`, to the `i`-th point of the second
(target) list, and the four statistics are the minimum, maximum,
arithmetic mean and population standard deviation of that list. -/
theorem estimate_residual_stats
    (solve : List Pt → List Pt → (Fin 3 → Fin 3 → ℝ))
    (image_points csv_points : List Pt)
    (hlen : image_points.length = csv_points.length)
    (h3 : 3 ≤ image_points.length) :
    ∃ res, calculate_affine_transform solve image_points csv_points =
        Except.ok res ∧
      res.errors.length = image_points.length ∧
      res.errors =
        List.zipWith (fun p q => euclDist (applyAffine res.affine_matrix p) q)
          image_points csv_points ∧
      res.min_error ∈ res.errors ∧ (∀ e ∈ res.errors, res.min_error ≤ e) ∧
      res.max_error ∈ res.errors ∧ (∀ e ∈ res.errors, e ≤ res.max_error) ∧
      res.mean_error = res.errors.sum / (res.errors.length : ℝ) ∧
      res.std_error =
        Real.sqrt ((res.errors.map (fun e => (e - res.mean_error) ^ 2)).sum /
          (res.errors.length : ℝ)) := by
  have hnot : ¬ image_points.length < 3 := by omega
  have herr : (calcResult solve image_points csv_points).errors =
      pairErrors (solve image_points csv_points) image_points csv_points := rfl
  have hlen2 : (calcResult solve image_points csv_points).errors.length =
      image_points.length := by
    rw [herr, pairErrors_eq_zipWith, List.length_zipWith, ← hlen, min_self]
  have hne : (calcResult solve image_points csv_points).errors ≠ [] := by
    refine List.length_pos.mp ?_
    rw [hlen2]; omega
  refine ⟨calcResult solve image_points csv_points, ?_, hlen2, ?_, ?_, ?_,
    ?_, ?_, ?_, ?_⟩
  · unfold calculate_affine_transform
    rw [if_neg hnot]
  · rw [herr, pairErrors_eq_zipWith]
    rfl
  · exact (listMin_spec 0 _ hne).1
  · exact (listMin_spec 0 _ hne).2
  · exact (listMax_spec 0 _ hne).1
  · exact (listMax_spec 0 _ hne).2
  · rfl
  · rfl

/-- Witness for C3: on the three-pair check scenario (with an arbitrary
zero solver output) the estimator succeeds and returns one error entry
per pair. -/
theorem estimate_residual_stats_witness :
    Except.map (fun r : CalibResult => r.errors.length)
      (calculate_affine_transform zeroSolver refPoints srcPoints) =
      Except.ok 3 := by
  obtain ⟨res, heq, hlen3, _⟩ :=
    estimate_residual_stats zeroSolver refPoints srcPoints
      (by norm_num [refPoints, srcPoints]) (by norm_num [refPoints])
  rw [heq]
  simp [Except.map, hlen3, refPoints]

theorem list_sum_zero_of_nonneg (l : List ℝ) (hn : ∀ x ∈ l, 0 ≤ x)
    (hs : l.sum = 0) : ∀ x ∈ l, x = 0 := by
  induction l with
  | nil => simp
  | cons h t ih =>
      have hh : 0 ≤ h := hn h (List.mem_cons_self h t)
      have ht : 0 ≤ t.sum :=
        List.sum_nonneg (fun x hx => hn x (List.mem_cons_of_mem _ hx))
      have hsum : h + t.sum = 0 := by simpa using hs
      intro x hx
      rcases List.mem_cons.mp hx with rfl | hx
      · linarith
      · exact ih (fun y hy => hn y (List.mem_cons_of_mem _ hy)) (by linarith) x hx

theorem objective_nonneg (src dst : List Pt) (x : Fin 3 → Fin 3 → ℝ) :
    0 ≤ objective src dst x := by
  apply List.sum_nonneg
  intro a ha
  obtain ⟨pq, _, rfl⟩ := List.mem_map.mp ha
  exact Finset.sum_nonneg fun j _ => sq_nonneg _

/-- The total squared residual vanishes exactly when every padded source
row is mapped exactly onto its padded target row. -/
theorem objective_eq_zero_iff (src dst : List Pt) (x : Fin 3 → Fin 3 → ℝ) :
    objective src dst x = 0 ↔
      ∀ pq ∈ src.zip dst, ∀ j, rowMul (padRow pq.1) x j = padRow pq.2 j := by
  constructor
  · intro h0 pq hpq j
    unfold objective at h0
    have hterm :
        (∑ j, (rowMul (padRow pq.1) x j - padRow pq.2 j) ^ 2) = 0 := by
      refine list_sum_zero_of_nonneg _ ?_ h0 _ (List.mem_map_of_mem _ hpq)
      intro a ha
      obtain ⟨pq', _, rfl⟩ := List.mem_map.mp ha
      exact Finset.sum_nonneg fun j _ => sq_nonneg _
    have hsq :=
      (Finset.sum_eq_zero_iff_of_nonneg (fun j _ => sq_nonneg _)).mp hterm j
        (Finset.mem_univ j)
    have hz := pow_eq_zero_iff (two_ne_zero) |>.mp hsq
    exact sub_eq_zero.mp hz
  · intro h
    unfold objective
    apply List.sum_eq_zero
    intro a ha
    obtain ⟨pq, hpq, rfl⟩ := List.mem_map.mp ha
    apply Finset.sum_eq_zero
    intro j _
    rw [h pq hpq j, sub_self]
    exact zero_pow (two_ne_zero)

/-- Twice the signed area of the triangle `p q r`; nonzero iff the three
points are not collinear. -/
def det3 (p q r : Pt) : ℝ :=
  (q.1 - p.1) * (r.2 - p.2) - (q.2 - p.2) * (r.1 - p.1)

/-- A point list is non-collinear when it contains some genuinely
triangular triple. -/
def NonCollinear (ps : List Pt) : Prop :=
  ∃ a b c : Fin ps.length, det3 (ps.get a) (ps.get b) (ps.get c) ≠ 0

/-- Three non-collinear padded rows have trivial kernel: a vector
annihilated by all three dot products is zero. -/
theorem dotPad_ker (p q r : Pt) (hdet : det3 p q r ≠ 0) (v : Fin 3 → ℝ)
    (hp : ∑ k, padRow p k * v k = 0)
    (hq : ∑ k, padRow q k * v k = 0)
    (hr : ∑ k, padRow r k * v k = 0) : ∀ k, v k = 0 := by
  simp only [padRow, Fin.sum_univ_three, Matrix.cons_val_zero,
    Matrix.cons_val_one, Matrix.head_cons, Matrix.cons_val_two,
    Matrix.tail_cons, one_mul] at hp hq hr
  have h0 : v 0 * det3 p q r = 0 := by
    unfold det3
    linear_combination (r.2 - p.2) * hq - (q.2 - p.2) * hr + (q.2 - r.2) * hp
  have h1 : v 1 * det3 p q r = 0 := by
    unfold det3
    linear_combination (p.1 - r.1) * hq + (q.1 - p.1) * hr + (r.1 - q.1) * hp
  have hv0 : v 0 = 0 := by
    rcases mul_eq_zero.mp h0 with h | h
    · exact h
    · exact absurd h hdet
  have hv1 : v 1 = 0 := by
    rcases mul_eq_zero.mp h1 with h | h
    · exact h
    · exact absurd h hdet
  have hv2 : v 2 = 0 := by
    linear_combination hp - p.1 * hv0 - p.2 * hv1
  intro k
  fin_cases k
  · exact hv0
  · exact hv1
  · exact hv2

/-- With a non-collinear source configuration the least-squares problem
has at most one exact solution. -/
theorem objective_zero_unique (src dst : List Pt)
    (hlen : src.length = dst.length) (hnc : NonCollinear src)
    (x y : Fin 3 → Fin 3 → ℝ)
    (hx : objective src dst x = 0) (hy : objective src dst y = 0) :
    x = y := by
  obtain ⟨a, b, c, hdet⟩ := hnc
  have hxr := (objective_eq_zero_iff src dst x).mp hx
  have hyr := (objective_eq_zero_iff src dst y).mp hy
  have hzlen : (src.zip dst).length = src.length := by
    rw [List.length_zip, ← hlen, min_self]
  have key : ∀ (i : Fin src.length) (j : Fin 3),
      ∑ k, padRow (src.get i) k * (x k j - y k j) = 0 := by
    intro i j
    have hilt : (i : ℕ) < (src.zip dst).length := by
      rw [hzlen]; exact i.isLt
    have hidst : (i : ℕ) < dst.length := by
      rw [← hlen]; exact i.isLt
    have hpair : (src.zip dst).get ⟨i, hilt⟩ =
        (src.get i, dst.get ⟨i, hidst⟩) := by
      simp [List.get_eq_getElem, List.getElem_zip]
    have hmem : (src.get i, dst.get ⟨i, hidst⟩) ∈ src.zip dst := by
      rw [← hpair]; exact List.get_mem _ _ hilt
    have hx' := hxr _ hmem j
    have hy' := hyr _ hmem j
    have hsub : rowMul (padRow (src.get i)) x j -
        rowMul (padRow (src.get i)) y j = 0 := by
      dsimp only at hx' hy'
      rw [hx', hy', sub_self]
    calc ∑ k, padRow (src.get i) k * (x k j - y k j)
        = (∑ k, padRow (src.get i) k * x k j) -
            ∑ k, padRow (src.get i) k * y k j := by
          rw [← Finset.sum_sub_distrib]
          exact Finset.sum_congr rfl fun k _ => by ring
      _ = 0 := hsub
  funext k j
  have hv := dotPad_ker (src.get a) (src.get b) (src.get c) hdet
    (fun k => x k j - y k j) (key a j) (key b j) (key c j) k
  exact sub_eq_zero.mp hv

/-- A 2D similarity: rotation by `θ`, scaling by `s`, translation by
`(tx, ty)`. -/
noncomputable def simMap (s θ tx ty : ℝ) (p : Pt) : Pt :=
  (s * (Real.cos θ * p.1 - Real.sin θ * p.2) + tx,
   s * (Real.sin θ * p.1 + Real.cos θ * p.2) + ty)

/-- The homogeneous matrix of that similarity. -/
noncomputable def simMatrix (s θ tx ty : ℝ) : Fin 3 → Fin 3 → ℝ :=
  ![![s * Real.cos θ, -(s * Real.sin θ), tx],
    ![s * Real.sin θ, s * Real.cos θ, ty],
    ![0, 0, 1]]

/-- The transposed similarity matrix maps each padded point exactly onto
its padded image. -/
theorem rowMul_simT (s θ tx ty : ℝ) (p : Pt) (j : Fin 3) :
    rowMul (padRow p) (fun k j => simMatrix s θ tx ty j k) j =
      padRow (simMap s θ tx ty p) j := by
  fin_cases j <;>
    simp [rowMul, padRow, simMatrix, simMap, Fin.sum_univ_three] <;>
    ring

theorem zip_map_snd {α β : Type} (f : α → β) (l : List α) (pq : α × β)
    (h : pq ∈ l.zip (l.map f)) : pq.2 = f pq.1 := by
  induction l with
  | nil => simp at h
  | cons a t ih =>
      rcases List.mem_cons.mp h with h | h
      · rw [h]
      · exact ih h

/-- An exactly consistent similarity configuration has zero residual at
the transposed similarity matrix. -/
theorem sim_objective_zero (s θ tx ty : ℝ) (ref : List Pt) :
    objective ref (ref.map (simMap s θ tx ty))
      (fun k j => simMatrix s θ tx ty j k) = 0 := by
  apply (objective_eq_zero_iff _ _ _).mpr
  intro pq hpq j
  rw [zip_map_snd _ _ _ hpq]
  exact rowMul_simT s θ tx ty pq.1 j

/-- Forcing the bottom row of the transposed similarity matrix gives back
the similarity matrix itself. -/
theorem affineOf_simT (s θ tx ty : ℝ) :
    affineOf (fun k j => simMatrix s θ tx ty j k) = simMatrix s θ tx ty := by
  funext i j
  unfold affineOf
  by_cases hi : i = 2
  · subst hi
    fin_cases j <;> simp [simMatrix]
  · rw [if_neg hi]

/-- Distances of a list zipped with itself are all zero. -/
theorem zip_self_dist (l : List Pt) :
    (l.zip l).map (fun tq : Pt × Pt => euclDist tq.1 tq.2) =
      List.replicate l.length 0 := by
  induction l with
  | nil => simp
  | cons a t ih =>
      simp only [List.zip_cons_cons, List.map_cons, List.replicate_succ, ih]
      congr 1
      simp [euclDist]

theorem listMin_replicate_pos {α : Type} [LinearOrder α] (d a : α) (n : ℕ)
    (hn : 0 < n) : listMin d (List.replicate n a) = a := by
  have hne : List.replicate n a ≠ [] := by simp [hn.ne']
  exact List.eq_of_mem_replicate (listMin_spec d _ hne).1

theorem listMax_replicate_pos {α : Type} [LinearOrder α] (d a : α) (n : ℕ)
    (hn : 0 < n) : listMax d (List.replicate n a) = a := by
  have hne : List.replicate n a ≠ [] := by simp [hn.ne']
  exact List.eq_of_mem_replicate (listMax_spec d _ hne).1

/-- C1: if the target points are exactly a similarity (scale `s > 0`,
rotation `θ`, translation `(tx, ty)`) of at least three non-collinear
source points, the least-squares estimate is the exact similarity: the
estimator returns exactly the similarity matrix and all per-pair errors
and error statistics are zero; consequently the mean error is below
`1e-6`. -/
theorem estimate_recovers_similarity
    (solve : List Pt → List Pt → (Fin 3 → Fin 3 → ℝ)) (s θ tx ty : ℝ)
    (reference : List Pt)
    (_hs : 0 < s) (h3 : 3 ≤ reference.length) (hnc : NonCollinear reference)
    (hsolve : IsLstsqSol reference (reference.map (simMap s θ tx ty))
      (solve reference (reference.map (simMap s θ tx ty)))) :
    calculate_affine_transform solve reference
        (reference.map (simMap s θ tx ty)) =
      Except.ok
        { affine_matrix := simMatrix s θ tx ty,
          errors := List.replicate reference.length 0,
          min_error := 0, max_error := 0, mean_error := 0,
          std_error := 0 } ∧
    ∀ res, calculate_affine_transform solve reference
        (reference.map (simMap s θ tx ty)) = Except.ok res →
      res.mean_error < 1e-6 := by
  have hnpos : 0 < reference.length := by omega
  have hx0 : objective reference (reference.map (simMap s θ tx ty))
      (fun k j => simMatrix s θ tx ty j k) = 0 :=
    sim_objective_zero s θ tx ty reference
  have hge := objective_nonneg reference (reference.map (simMap s θ tx ty))
    (solve reference (reference.map (simMap s θ tx ty)))
  have hle := hsolve.1 (fun k j => simMatrix s θ tx ty j k)
  rw [hx0] at hle
  have hzero : objective reference (reference.map (simMap s θ tx ty))
      (solve reference (reference.map (simMap s θ tx ty))) = 0 :=
    le_antisymm hle hge
  have hxeq : solve reference (reference.map (simMap s θ tx ty)) =
      fun k j => simMatrix s θ tx ty j k :=
    objective_zero_unique reference (reference.map (simMap s θ tx ty))
      (by rw [List.length_map]) hnc _ _ hzero hx0
  have htrans : transformedPoints
      (solve reference (reference.map (simMap s θ tx ty))) reference =
      reference.map (simMap s θ tx ty) := by
    rw [hxeq]
    unfold transformedPoints
    have hfun : (fun p : Pt =>
        (rowMul (padRow p) (fun k j => simMatrix s θ tx ty j k) 0,
         rowMul (padRow p) (fun k j => simMatrix s θ tx ty j k) 1)) =
        simMap s θ tx ty := by
      funext p
      refine Prod.ext ?_ ?_ <;> dsimp only
      · rw [rowMul_simT]; simp [padRow]
      · rw [rowMul_simT]; simp [padRow]
    rw [hfun]
  have herr : pairErrors
      (solve reference (reference.map (simMap s θ tx ty))) reference
      (reference.map (simMap s θ tx ty)) =
      List.replicate reference.length 0 := by
    unfold pairErrors
    rw [htrans, zip_self_dist, List.length_map]
  have hmain : calculate_affine_transform solve reference
      (reference.map (simMap s θ tx ty)) =
      Except.ok
        { affine_matrix := simMatrix s θ tx ty,
          errors := List.replicate reference.length 0,
          min_error := 0, max_error := 0, mean_error := 0,
          std_error := 0 } := by
    unfold calculate_affine_transform
    rw [if_neg (by omega)]
    congr 1
    unfold calcResult
    dsimp only
    rw [herr, hxeq, affineOf_simT]
    simp [List.map_replicate]
    exact ⟨listMin_replicate_pos 0 0 _ hnpos,
      listMax_replicate_pos 0 0 _ hnpos⟩
  refine ⟨hmain, ?_⟩
  intro res hres
  rw [hmain] at hres
  injection hres with h
  rw [← h]
  norm_num

/-- The solver actually used in the calibration check scenario: it
returns the (transposed) scale-2 translate-(10,20) similarity matrix,
which `estimate_recovers_similarity_witness` shows is the least-squares
solution there. -/
noncomputable def simSolver : List Pt → List Pt → (Fin 3 → Fin 3 → ℝ) :=
  fun _ _ => fun k j => simMatrix 2 0 10 20 j k

/-- Witness for C1: the concrete calibration check scenario.  The source
points are exactly `2·reference + (10, 20)` and the estimator returns the
matrix `[[2,0,10],[0,2,20],[0,0,1]]` with all errors zero. -/
theorem estimate_recovers_similarity_witness :
    refPoints.map (simMap 2 0 10 20) = srcPoints ∧
    calculate_affine_transform simSolver refPoints srcPoints =
      Except.ok
        { affine_matrix := ![![(2 : ℝ), 0, 10], ![0, 2, 20], ![0, 0, 1]],
          errors := [0, 0, 0],
          min_error := 0, max_error := 0, mean_error := 0,
          std_error := 0 } := by
  have hmap : refPoints.map (simMap 2 0 10 20) = srcPoints := by
    simp [refPoints, srcPoints, simMap, Real.cos_zero, Real.sin_zero]
    norm_num
  have hnc : NonCollinear refPoints := by
    refine ⟨⟨0, by norm_num [refPoints]⟩, ⟨1, by norm_num [refPoints]⟩,
      ⟨2, by norm_num [refPoints]⟩, ?_⟩
    show det3 ((10 : ℝ), (10 : ℝ)) ((20 : ℝ), (10 : ℝ)) ((10 : ℝ), (20 : ℝ)) ≠ 0
    unfold det3
    norm_num
  have hx0 := sim_objective_zero 2 0 10 20 refPoints
  have hsolve : IsLstsqSol refPoints (refPoints.map (simMap 2 0 10 20))
      (simSolver refPoints (refPoints.map (simMap 2 0 10 20))) := by
    constructor
    · intro y
      show objective _ _ (fun k j => simMatrix 2 0 10 20 j k) ≤ _
      rw [hx0]
      exact objective_nonneg _ _ y
    · intro y hy
      have hyzero : objective refPoints (refPoints.map (simMap 2 0 10 20))
          y = 0 := by
        rw [hy]
        exact hx0
      have heq := objective_zero_unique refPoints
        (refPoints.map (simMap 2 0 10 20)) (by rw [List.length_map]) hnc
        y (fun k j => simMatrix 2 0 10 20 j k) hyzero hx0
      rw [heq]
      exact le_of_eq rfl
  obtain ⟨hmain, _⟩ :=
    estimate_recovers_similarity simSolver 2 0 10 20 refPoints
      (by norm_num) (by norm_num [refPoints]) hnc hsolve
  rw [hmap] at hmain
  have hm : simMatrix 2 0 10 20 =
      ![![(2 : ℝ), 0, 10], ![0, 2, 20], ![0, 0, 1]] := by
    funext i j
    fin_cases i <;> fin_cases j <;>
      simp [simMatrix, Real.cos_zero, Real.sin_zero]
  have hrep : List.replicate refPoints.length (0 : ℝ) = [0, 0, 0] := rfl
  rw [hm, hrep] at hmain
  exact ⟨hmap, hmain⟩

/-! ## The image normaliser (`calibration_tool/image.py`)

Images are rectangular uint8 pixel buffers; a 3-channel image is modelled
as dimensions plus a (total) pixel function into integer channel values.
`remove_background` samples the colour at `init_pos`, computes the
Euclidean colour distance of every pixel to that sample, and in `fill`
mode flood-fills (4-connectivity, plus-shaped footprint) from `init_pos`
through pixels whose distance stays within the tolerance of the seed
value (the seed value of the distance image is 0, so the comparison is
`‖colour − sample‖ ≤ threshold`, phrased below on squared distances —
exact for this integer range, where float32 rounding cannot cross the
threshold).  Filled pixels get mask 0, all others mask 255.

The flood fill is embedded as a fuel-indexed reachability predicate; with
`rows·cols` fuel it is the exact flood (every cell of the grid is within
`rows·cols − 1` steps of the seed when reachable at all). -/

structure Img where
  rows : ℕ
  cols : ℕ
  pix : ℕ → ℕ → Fin 3 → ℤ

structure Img4 where
  rows : ℕ
  cols : ℕ
  pix : ℕ → ℕ → Fin 4 → ℤ

/-- Squared Euclidean colour distance. -/
def dist2 (a b : Fin 3 → ℤ) : ℤ := ∑ c, (a c - b c) ^ 2

/-- `np.linalg.norm(img − img[init_pos]) ≤ threshold` at pixel `(i, j)`,
phrased on squared distances. -/
def inTol (img : Img) (init_pos : ℕ × ℕ) (threshold : ℤ) (i j : ℕ) :
    Prop :=
  dist2 (img.pix i j) (img.pix init_pos.1 init_pos.2) ≤ threshold ^ 2

instance (img : Img) (p0 : ℕ × ℕ) (t : ℤ) (i j : ℕ) :
    Decidable (inTol img p0 t i j) := by
  unfold inTol; infer_instance

/-- One expansion step of the flood fill: a cell is reached if it was
already reached, or it is in bounds, within tolerance, and 4-adjacent to
a reached cell. -/
abbrev reachStep (img : Img) (p0 : ℕ × ℕ) (t : ℤ) (R : ℕ → ℕ → Prop)
    (i j : ℕ) : Prop :=
  R i j ∨ (i < img.rows ∧ j < img.cols ∧ inTol img p0 t i j ∧
    ((0 < i ∧ R (i - 1) j) ∨ (i + 1 < img.rows ∧ R (i + 1) j) ∨
     (0 < j ∧ R i (j - 1)) ∨ (j + 1 < img.cols ∧ R i (j + 1))))

/-- Cells reached by the flood fill within `n` expansion steps. -/
def reachIn (img : Img) (p0 : ℕ × ℕ) (t : ℤ) : ℕ → ℕ → ℕ → Prop
  | 0 => fun i j => i = p0.1 ∧ j = p0.2
  | n + 1 => reachStep img p0 t (reachIn img p0 t n)

instance reachInDec (img : Img) (p0 : ℕ × ℕ) (t : ℤ) :
    ∀ (n i j : ℕ), Decidable (reachIn img p0 t n i j)
  | 0, i, j => decidable_of_iff (i = p0.1 ∧ j = p0.2) (by simp [reachIn])
  | n + 1, i, j =>
      haveI : ∀ i j, Decidable (reachIn img p0 t n i j) :=
        reachInDec img p0 t n
      decidable_of_iff (reachStep img p0 t (reachIn img p0 t n) i j)
        (by simp [reachIn])

/-- The flood-filled region: `rows·cols` fuel exhausts the whole grid. -/
def reaches (img : Img) (p0 : ℕ × ℕ) (t : ℤ) (i j : ℕ) : Prop :=
  reachIn img p0 t (img.rows * img.cols) i j

instance (img : Img) (p0 : ℕ × ℕ) (t : ℤ) (i j : ℕ) :
    Decidable (reaches img p0 t i j) :=
  reachInDec img p0 t _ i j

/-- `mode` of `remove_background`: `fill` flood-fills from `init_pos`,
`value` removes every pixel within the tolerance anywhere. -/
inductive SegMode
  | fill
  | value

/-- The black-and-white mask built by `remove_background`: 0 (transparent)
on background, 255 (opaque) elsewhere. -/
def maskOf (img : Img) (threshold : ℤ) (init_pos : ℕ × ℕ)
    (mode : SegMode) (i j : ℕ) : ℤ :=
  match mode with
  | SegMode.fill => if reaches img init_pos threshold i j then 0 else 255
  | SegMode.value =>
      if dist2 (img.pix i j) (img.pix init_pos.1 init_pos.2) <
          threshold ^ 2 then 0 else 255

/-- `remove_background(img, threshold, init_pos, mode)`: the RGBA image
(original channels plus the mask as alpha) and the mask itself. -/
def remove_background (img : Img) (threshold : ℤ) (init_pos : ℕ × ℕ)
    (mode : SegMode) : Img4 × (ℕ → ℕ → ℤ) :=
  ({ rows := img.rows, cols := img.cols,
     pix := fun i j c =>
       if h : (c : ℕ) < 3 then img.pix i j ⟨c, h⟩
       else maskOf img threshold init_pos mode i j },
   maskOf img threshold init_pos mode)

/-- The error of `auto_crop` on an all-background image (`np.min` of an
empty coordinate array raises; the specification names the failure
`EmptyForegroundError`). -/
inductive CropError
  | emptyForeground
  deriving DecidableEq

/-- The temporary padded image built at the top of `auto_crop`: the
shape grows by `borders` per axis, the original is placed at offset
`borders // 2`, and the fill is the corner pixel's colour. -/
def padImage (img : Img) (borders : ℕ) : Img :=
  { rows := img.rows + borders, cols := img.cols + borders,
    pix := fun i j =>
      if borders / 2 ≤ i ∧ i < borders / 2 + img.rows ∧
         borders / 2 ≤ j ∧ j < borders / 2 + img.cols
      then img.pix (i - borders / 2) (j - borders / 2)
      else img.pix 0 0 }

/-- `np.where(mask == 255)` as the row-major list of foreground
coordinates. -/
def fgCells (mask : ℕ → ℕ → ℤ) (rows cols : ℕ) : List (ℕ × ℕ) :=
  (List.range rows).flatMap (fun i =>
    ((List.range cols).filter (fun j => decide (mask i j = 255))).map
      (fun j => (i, j)))

/-- `auto_crop(img, borders)`: pad, segment from the corner, take the
bounding box of the foreground and crop it re-expanded by `borders // 2`
on each side.  (The crop indices stay within the padded image: the
foreground always lies at least `borders // 2` away from the padded
boundary, so the integer subtractions below never borrow.) -/
def auto_crop (img : Img) (borders : ℕ) : Except CropError Img :=
  let new_img := padImage img borders
  let mask := (remove_background new_img 10 (0, 0) SegMode.fill).2
  let cells := fgCells mask new_img.rows new_img.cols
  if cells = [] then Except.error CropError.emptyForeground
  else
    let x_min := listMin 0 (cells.map Prod.fst)
    let x_max := listMax 0 (cells.map Prod.fst)
    let y_min := listMin 0 (cells.map Prod.snd)
    let y_max := listMax 0 (cells.map Prod.snd)
    Except.ok
      { rows := (x_max + borders / 2 + 1) - (x_min - borders / 2),
        cols := (y_max + borders / 2 + 1) - (y_min - borders / 2),
        pix := fun i j =>
          new_img.pix (x_min - borders / 2 + i) (y_min - borders / 2 + j) }

theorem reachIn_mono (img : Img) (p0 : ℕ × ℕ) (t : ℤ) {m n : ℕ}
    (hmn : m ≤ n) {i j : ℕ} (h : reachIn img p0 t m i j) :
    reachIn img p0 t n i j := by
  induction hmn with
  | refl => exact h
  | step _ ih => exact Or.inl ih

theorem reachIn_seed (img : Img) (p0 : ℕ × ℕ) (t : ℤ) (n : ℕ) :
    reachIn img p0 t n p0.1 p0.2 := by
  induction n with
  | zero => exact ⟨rfl, rfl⟩
  | succ n ih => exact Or.inl ih

theorem inTol_seed (img : Img) (p0 : ℕ × ℕ) (t : ℤ) :
    inTol img p0 t p0.1 p0.2 := by
  unfold inTol dist2
  have hz : ∀ c : Fin 3,
      (img.pix p0.1 p0.2 c - img.pix p0.1 p0.2 c) ^ 2 = 0 := fun c => by ring
  rw [Finset.sum_congr rfl (fun c _ => hz c)]
  simpa using sq_nonneg t

/-- Every flooded cell is within tolerance (the seed included). -/
theorem reachIn_inTol (img : Img) (p0 : ℕ × ℕ) (t : ℤ) :
    ∀ n i j, reachIn img p0 t n i j → inTol img p0 t i j := by
  intro n
  induction n with
  | zero =>
      intro i j h
      rcases h with ⟨rfl, rfl⟩
      exact inTol_seed img p0 t
  | succ n ih =>
      intro i j h
      rcases h with h | ⟨_, _, ht, _⟩
      · exact ih _ _ h
      · exact ht

theorem grid_fuel_bound (rows cols i j : ℕ) (hi : i < rows)
    (hj : j < cols) : i + j ≤ rows * cols := by
  obtain ⟨r, rfl⟩ : ∃ r, rows = r + 1 := ⟨rows - 1, by omega⟩
  obtain ⟨c, rfl⟩ : ∃ c, cols = c + 1 := ⟨cols - 1, by omega⟩
  have hexp : (r + 1) * (c + 1) = r * c + r + c + 1 := by ring
  omega

/-- Walking right along a row whose cells are all in tolerance. -/
theorem reachIn_right (img : Img) (p0 : ℕ × ℕ) (t : ℤ) (i : ℕ)
    {n j j' : ℕ} (hjj : j ≤ j') (h : reachIn img p0 t n i j)
    (hseg : ∀ k, j < k → k ≤ j' →
      i < img.rows ∧ k < img.cols ∧ inTol img p0 t i k) :
    reachIn img p0 t (n + (j' - j)) i j' := by
  induction j', hjj using Nat.le_induction with
  | base => simpa using h
  | succ j' hjj ih =>
      have hstep := hseg (j' + 1) (by omega) (le_refl _)
      have hprev : reachIn img p0 t (n + (j' - j)) i j' :=
        ih (fun k hk1 hk2 => hseg k hk1 (by omega))
      have hfuel : n + (j' + 1 - j) = n + (j' - j) + 1 := by omega
      rw [hfuel]
      refine Or.inr ⟨hstep.1, hstep.2.1, hstep.2.2, ?_⟩
      right; right; left
      exact ⟨Nat.succ_pos _, hprev⟩

/-- Walking down a column whose cells are all in tolerance. -/
theorem reachIn_down (img : Img) (p0 : ℕ × ℕ) (t : ℤ) (j : ℕ)
    {n i i' : ℕ} (hii : i ≤ i') (h : reachIn img p0 t n i j)
    (hseg : ∀ k, i < k → k ≤ i' →
      k < img.rows ∧ j < img.cols ∧ inTol img p0 t k j) :
    reachIn img p0 t (n + (i' - i)) i' j := by
  induction i', hii using Nat.le_induction with
  | base => simpa using h
  | succ i' hii ih =>
      have hstep := hseg (i' + 1) (by omega) (le_refl _)
      have hprev : reachIn img p0 t (n + (i' - i)) i' j :=
        ih (fun k hk1 hk2 => hseg k hk1 (by omega))
      have hfuel : n + (i' + 1 - i) = n + (i' - i) + 1 := by omega
      rw [hfuel]
      refine Or.inr ⟨hstep.1, hstep.2.1, hstep.2.2, ?_⟩
      left
      exact ⟨Nat.succ_pos _, hprev⟩

/-- An axis-aligned obstacle `[r1,r2] × [c1,c2]`. -/
def InRect (r1 r2 c1 c2 i j : ℕ) : Prop :=
  r1 ≤ i ∧ i ≤ r2 ∧ c1 ≤ j ∧ j ≤ c2

instance (r1 r2 c1 c2 i j : ℕ) : Decidable (InRect r1 r2 c1 c2 i j) := by
  unfold InRect; infer_instance

/-- If everything outside a rectangular obstacle away from the top-left
corner is within tolerance, the flood from the corner reaches every
in-bounds cell outside the obstacle (in at most `i + j` steps: along an
edge, then straight). -/
theorem reachIn_rect_compl (img : Img) (t : ℤ) (r1 r2 c1 c2 : ℕ)
    (hr1 : 1 ≤ r1) (hc1 : 1 ≤ c1)
    (hS : ∀ i j, i < img.rows → j < img.cols →
      ¬ InRect r1 r2 c1 c2 i j → inTol img (0, 0) t i j) :
    ∀ i j, i < img.rows → j < img.cols → ¬ InRect r1 r2 c1 c2 i j →
      reachIn img (0, 0) t (i + j) i j := by
  intro i j hi hj hnr
  have hseed : reachIn img (0, 0) t 0 0 0 := ⟨rfl, rfl⟩
  by_cases hA : i < r1
  · -- along row 0 (above the obstacle), then down column j
    have hrow : reachIn img (0, 0) t (0 + (j - 0)) 0 j :=
      reachIn_right img (0, 0) t 0 (Nat.zero_le j) hseed
        (fun k _ hk => ⟨by omega, by omega,
          hS 0 k (by omega) (by omega) (by unfold InRect; omega)⟩)
    have hcol : reachIn img (0, 0) t (0 + (j - 0) + (i - 0)) i j :=
      reachIn_down img (0, 0) t j (Nat.zero_le i) hrow
        (fun k _ hk => ⟨by omega, by omega,
          hS k j (by omega) (by omega) (by unfold InRect; omega)⟩)
    have hfuel : 0 + (j - 0) + (i - 0) = i + j := by omega
    rwa [hfuel] at hcol
  · push_neg at hA
    by_cases hB : j < c1
    · -- down column 0 (left of the obstacle), then right along row i
      have hcol : reachIn img (0, 0) t (0 + (i - 0)) i 0 :=
        reachIn_down img (0, 0) t 0 (Nat.zero_le i) hseed
          (fun k _ hk => ⟨by omega, by omega,
            hS k 0 (by omega) (by omega) (by unfold InRect; omega)⟩)
      have hrow : reachIn img (0, 0) t (0 + (i - 0) + (j - 0)) i j :=
        reachIn_right img (0, 0) t i (Nat.zero_le j) hcol
          (fun k _ hk => ⟨by omega, by omega,
            hS i k (by omega) (by omega) (by unfold InRect; omega)⟩)
      have hfuel : 0 + (i - 0) + (j - 0) = i + j := by omega
      rwa [hfuel] at hrow
    · push_neg at hB
      by_cases hC : c2 < j
      · -- along row 0, then down column j (right of the obstacle)
        have hrow : reachIn img (0, 0) t (0 + (j - 0)) 0 j :=
          reachIn_right img (0, 0) t 0 (Nat.zero_le j) hseed
            (fun k _ hk => ⟨by omega, by omega,
              hS 0 k (by omega) (by omega) (by unfold InRect; omega)⟩)
        have hcol : reachIn img (0, 0) t (0 + (j - 0) + (i - 0)) i j :=
          reachIn_down img (0, 0) t j (Nat.zero_le i) hrow
            (fun k _ hk => ⟨by omega, by omega,
              hS k j (by omega) (by omega) (by unfold InRect; omega)⟩)
        have hfuel : 0 + (j - 0) + (i - 0) = i + j := by omega
        rwa [hfuel] at hcol
      · push_neg at hC
        have hD : r2 < i := by
          by_contra hcon
          push_neg at hcon
          exact hnr ⟨hA, hcon, hB, hC⟩
        -- down column 0, then right along row i (below the obstacle)
        have hcol : reachIn img (0, 0) t (0 + (i - 0)) i 0 :=
          reachIn_down img (0, 0) t 0 (Nat.zero_le i) hseed
            (fun k _ hk => ⟨by omega, by omega,
              hS k 0 (by omega) (by omega) (by unfold InRect; omega)⟩)
        have hrow : reachIn img (0, 0) t (0 + (i - 0) + (j - 0)) i j :=
          reachIn_right img (0, 0) t i (Nat.zero_le j) hcol
            (fun k _ hk => ⟨by omega, by omega,
              hS i k (by omega) (by omega) (by unfold InRect; omega)⟩)
        have hfuel : 0 + (i - 0) + (j - 0) = i + j := by omega
        rwa [hfuel] at hrow

/-- Membership in the foreground coordinate list. -/
theorem fgCells_mem (mask : ℕ → ℕ → ℤ) (rows cols : ℕ) (p : ℕ × ℕ) :
    p ∈ fgCells mask rows cols ↔
      p.1 < rows ∧ p.2 < cols ∧ mask p.1 p.2 = 255 := by
  obtain ⟨i, j⟩ := p
  unfold fgCells
  simp only [List.mem_flatMap, List.mem_map, List.mem_filter,
    List.mem_range, decide_eq_true_eq, Prod.mk.injEq]
  constructor
  · rintro ⟨a, ha, b, ⟨⟨hb, hm⟩, rfl, rfl⟩⟩
    exact ⟨ha, hb, hm⟩
  · rintro ⟨hi, hj, hm⟩
    exact ⟨i, hi, j, ⟨hj, hm⟩, rfl, rfl⟩

theorem listMin_eq_of {α : Type} [LinearOrder α] (d a : α) (l : List α)
    (ha : a ∈ l) (hb : ∀ x ∈ l, a ≤ x) : listMin d l = a := by
  have hne : l ≠ [] := List.ne_nil_of_mem ha
  obtain ⟨hmem, hlb⟩ := listMin_spec d l hne
  exact le_antisymm (hlb a ha) (hb _ hmem)

theorem listMax_eq_of {α : Type} [LinearOrder α] (d a : α) (l : List α)
    (ha : a ∈ l) (hb : ∀ x ∈ l, x ≤ a) : listMax d l = a := by
  have hne : l ≠ [] := List.ne_nil_of_mem ha
  obtain ⟨hmem, hub⟩ := listMax_spec d l hne
  exact le_antisymm (hb _ hmem) (hub a ha)

/-- The colour of the block in the test fixture. -/
def blockColor : Fin 3 → ℤ := ![10, 20, 30]

/-- The test fixture: a 100×100 uniform-255 image with a 20×30 block of
colour `(10, 20, 30)` at rows `40:60`, columns `35:65`. -/
def fixtureImg : Img :=
  { rows := 100, cols := 100,
    pix := fun i j c =>
      if 40 ≤ i ∧ i < 60 ∧ 35 ≤ j ∧ j < 65 then blockColor c else 255 }

theorem remove_background_snd (img : Img) (threshold : ℤ)
    (init_pos : ℕ × ℕ) (mode : SegMode) :
    (remove_background img threshold init_pos mode).2 =
      maskOf img threshold init_pos mode := rfl

/-- C6: `remove_background` returns a mask taking only the values 0
(background) and 255 (foreground) together with a 4-channel image of the
same dimensions whose alpha channel is that mask; on the 100×100 fixture
the corner pixel is marked background (0) and the block interior
foreground (255). -/
theorem segment_background_mask :
    (∀ (img : Img) (threshold : ℤ) (init_pos : ℕ × ℕ) (mode : SegMode)
      (i j : ℕ),
      (remove_background img threshold init_pos mode).2 i j = 0 ∨
      (remove_background img threshold init_pos mode).2 i j = 255) ∧
    (∀ (img : Img) (threshold : ℤ) (init_pos : ℕ × ℕ) (mode : SegMode),
      (remove_background img threshold init_pos mode).1.rows = img.rows ∧
      (remove_background img threshold init_pos mode).1.cols = img.cols ∧
      ∀ i j, (remove_background img threshold init_pos mode).1.pix i j 3 =
        (remove_background img threshold init_pos mode).2 i j) ∧
    (remove_background fixtureImg 10 (0, 0) SegMode.fill).2 0 0 = 0 ∧
    (remove_background fixtureImg 10 (0, 0) SegMode.fill).2 50 50 = 255 := by
  refine ⟨?_, ?_, ?_, ?_⟩
  · intro img t p0 mode i j
    rw [remove_background_snd]
    cases mode
    · unfold maskOf
      by_cases h : reaches img p0 t i j
      · rw [if_pos h]; exact Or.inl rfl
      · rw [if_neg h]; exact Or.inr rfl
    · unfold maskOf
      by_cases h : dist2 (img.pix i j) (img.pix p0.1 p0.2) < t ^ 2
      · rw [if_pos h]; exact Or.inl rfl
      · rw [if_neg h]; exact Or.inr rfl
  · intro img t p0 mode
    refine ⟨rfl, rfl, ?_⟩
    intro i j
    rw [remove_background_snd]
    show (if h : ((3 : Fin 4) : ℕ) < 3 then img.pix i j ⟨3, h⟩
      else maskOf img t p0 mode i j) = maskOf img t p0 mode i j
    rw [dif_neg (by decide)]
  · rw [remove_background_snd]
    unfold maskOf
    rw [if_pos]
    exact reachIn_seed fixtureImg (0, 0) 10 _
  · rw [remove_background_snd]
    unfold maskOf
    rw [if_neg]
    intro hre
    have ht := reachIn_inTol fixtureImg (0, 0) 10 _ _ _ hre
    have hnot : ¬ inTol fixtureImg (0, 0) 10 50 50 := by decide
    exact hnot ht

/-- If every in-bounds pixel of an image is within tolerance of the
corner sample, the flood from the corner covers the whole image. -/
theorem reachIn_all_of_inTol (img : Img) (t : ℤ)
    (hall : ∀ i j, i < img.rows → j < img.cols → inTol img (0, 0) t i j) :
    ∀ i j, i < img.rows → j < img.cols →
      reachIn img (0, 0) t (i + j) i j := by
  intro i j hi hj
  exact reachIn_rect_compl img t img.rows img.rows img.cols img.cols
    (by omega) (by omega) (fun a b ha hb _ => hall a b ha hb) i j hi hj
    (by unfold InRect; omega)

/-- C7: when background segmentation of the padded image finds no
foreground pixel, `auto_crop` fails with the empty-foreground error
instead of returning an image; in particular it does so on every
uniformly-coloured (non-empty) image, for every border. -/
theorem auto_crop_empty_foreground :
    (∀ (img : Img) (borders : ℕ),
      fgCells
          ((remove_background (padImage img borders) 10 (0, 0)
            SegMode.fill).2)
          (padImage img borders).rows (padImage img borders).cols = [] →
      auto_crop img borders = Except.error CropError.emptyForeground) ∧
    (∀ (img : Img) (borders : ℕ), 1 ≤ img.rows → 1 ≤ img.cols →
      (∀ i j c, i < img.rows → j < img.cols →
        img.pix i j c = img.pix 0 0 c) →
      auto_crop img borders = Except.error CropError.emptyForeground) := by
  have hbranch : ∀ (img : Img) (borders : ℕ),
      fgCells
          ((remove_background (padImage img borders) 10 (0, 0)
            SegMode.fill).2)
          (padImage img borders).rows (padImage img borders).cols = [] →
      auto_crop img borders = Except.error CropError.emptyForeground := by
    intro img borders hcells
    unfold auto_crop
    rw [if_pos hcells]
  refine ⟨hbranch, ?_⟩
  intro img borders hr hc huni
  apply hbranch
  have hpad : ∀ i j c, i < (padImage img borders).rows →
      j < (padImage img borders).cols →
      (padImage img borders).pix i j c = img.pix 0 0 c := by
    intro i j c hi hj
    show (if borders / 2 ≤ i ∧ i < borders / 2 + img.rows ∧
        borders / 2 ≤ j ∧ j < borders / 2 + img.cols
      then img.pix (i - borders / 2) (j - borders / 2)
      else img.pix 0 0) c = img.pix 0 0 c
    split_ifs with h
    · exact huni _ _ c (by omega) (by omega)
    · rfl
  have hcorner : (0 : ℕ) < (padImage img borders).rows ∧
      (0 : ℕ) < (padImage img borders).cols := by
    constructor <;> · show 0 < _ + borders; omega
  have hintol : ∀ i j, i < (padImage img borders).rows →
      j < (padImage img borders).cols →
      inTol (padImage img borders) (0, 0) 10 i j := by
    intro i j hi hj
    unfold inTol dist2
    have hz : ∀ c : Fin 3,
        ((padImage img borders).pix i j c -
          (padImage img borders).pix (0, 0).1 (0, 0).2 c) ^ 2 = 0 := by
      intro c
      rw [hpad i j c hi hj, hpad 0 0 c hcorner.1 hcorner.2]
      ring
    rw [Finset.sum_congr rfl (fun c _ => hz c)]
    norm_num
  rw [List.eq_nil_iff_forall_not_mem]
  intro p hp
  rw [fgCells_mem] at hp
  obtain ⟨hi, hj, hm⟩ := hp
  have hre : reaches (padImage img borders) (0, 0) 10 p.1 p.2 :=
    reachIn_mono _ _ _ (grid_fuel_bound _ _ p.1 p.2 hi hj)
      (reachIn_all_of_inTol _ _ hintol p.1 p.2 hi hj)
  have : maskOf (padImage img borders) 10 (0, 0) SegMode.fill p.1 p.2 = 0 := by
    unfold maskOf
    rw [if_pos hre]
  rw [remove_background_snd] at hm
  omega

/-- A small uniformly-coloured image. -/
def uniformImg : Img := { rows := 2, cols := 2, pix := fun _ _ _ => 7 }

/-- Witness for C7: autocrop of a uniform 2×2 image fails with the
empty-foreground error. -/
theorem auto_crop_empty_foreground_witness :
    auto_crop uniformImg 0 = Except.error CropError.emptyForeground :=
  auto_crop_empty_foreground.2 uniformImg 0 (by decide) (by decide)
    (fun _ _ _ _ _ => rfl)

/-! ### The autocrop algorithm as the specification words it

The specification describes `autocrop` as padding the image by `border`
pixels **on all sides** (so each axis grows by `2·border`), while the
source grows each axis by `border` in total, placing the content at
offset `border // 2`.  Both pipelines are embedded below;
`autocrop_pad_counterexample` exhibits an input where they differ. -/

/-- Padding by `border` pixels on all sides, as the spec describes. -/
def padImageAll (img : Img) (border : ℕ) : Img :=
  { rows := img.rows + 2 * border, cols := img.cols + 2 * border,
    pix := fun i j =>
      if border ≤ i ∧ i < border + img.rows ∧
         border ≤ j ∧ j < border + img.cols
      then img.pix (i - border) (j - border)
      else img.pix 0 0 }

/-- Modelled from the spec: `autocrop(image, border)` — pad the image by
`border` pixels on all sides using the corner pixel's colour as fill,
segment the background from the top-left corner sample, compute the
bounding box of foreground pixels, and crop to that box re-expanded by
`border/2` (integer floor division) on each side; fail with the
empty-foreground error when no foreground pixel exists. -/
def autocropSpecAllSides (img : Img) (border : ℕ) : Except CropError Img :=
  let new_img := padImageAll img border
  let mask := (remove_background new_img 10 (0, 0) SegMode.fill).2
  let cells := fgCells mask new_img.rows new_img.cols
  if cells = [] then Except.error CropError.emptyForeground
  else
    let x_min := listMin 0 (cells.map Prod.fst)
    let x_max := listMax 0 (cells.map Prod.fst)
    let y_min := listMin 0 (cells.map Prod.snd)
    let y_max := listMax 0 (cells.map Prod.snd)
    Except.ok
      { rows := (x_max + border / 2 + 1) - (x_min - border / 2),
        cols := (y_max + border / 2 + 1) - (y_min - border / 2),
        pix := fun i j =>
          new_img.pix (x_min - border / 2 + i) (y_min - border / 2 + j) }

/-- The autocrop algorithm as the amended claim words it: pad the image
by `border` pixels **in total per axis** (`border//2` before the content
on each axis, the remainder after) using the corner pixel's colour as
fill, segment the background from the top-left corner sample, compute
the bounding box of foreground pixels, and crop to that box re-expanded
by `border//2` on each side. -/
def autocropSpecFixed (img : Img) (border : ℕ) : Except CropError Img :=
  let padded : Img :=
    { rows := img.rows + border, cols := img.cols + border,
      pix := fun i j =>
        if border / 2 ≤ i ∧ i < border / 2 + img.rows ∧
           border / 2 ≤ j ∧ j < border / 2 + img.cols
        then img.pix (i - border / 2) (j - border / 2)
        else img.pix 0 0 }
  let mask := (remove_background padded 10 (0, 0) SegMode.fill).2
  let fg := fgCells mask padded.rows padded.cols
  if fg = [] then Except.error CropError.emptyForeground
  else
    let x_min := listMin 0 (fg.map Prod.fst)
    let x_max := listMax 0 (fg.map Prod.fst)
    let y_min := listMin 0 (fg.map Prod.snd)
    let y_max := listMax 0 (fg.map Prod.snd)
    Except.ok
      { rows := (x_max + border / 2 + 1) - (x_min - border / 2),
        cols := (y_max + border / 2 + 1) - (y_min - border / 2),
        pix := fun i j =>
          padded.pix (x_min - border / 2 + i) (y_min - border / 2 + j) }

/-- The counterexample image: 3×3, white top-left corner pixel, all
other pixels black.  With `border = 1` the source pads only the bottom
and right (offset `1 // 2 = 0`), so the white fill strip is cut off from
the white corner by the black pixels and counts as foreground, while the
spec's all-sides padding keeps the fill ring connected to the corner. -/
def cexImg : Img :=
  { rows := 3, cols := 3,
    pix := fun i j _ => if i = 0 ∧ j = 0 then 255 else 0 }

/-- Assembly lemma for `auto_crop`: once the bounding box of the
foreground of the padded image is known, the crop is determined. -/
theorem auto_crop_eval (img : Img) (borders r1 r2 c1 c2 : ℕ)
    (hne : fgCells (maskOf (padImage img borders) 10 (0, 0) SegMode.fill)
      (padImage img borders).rows (padImage img borders).cols ≠ [])
    (hxmin : listMin 0
      ((fgCells (maskOf (padImage img borders) 10 (0, 0) SegMode.fill)
        (padImage img borders).rows (padImage img borders).cols).map
          Prod.fst) = r1)
    (hxmax : listMax 0
      ((fgCells (maskOf (padImage img borders) 10 (0, 0) SegMode.fill)
        (padImage img borders).rows (padImage img borders).cols).map
          Prod.fst) = r2)
    (hymin : listMin 0
      ((fgCells (maskOf (padImage img borders) 10 (0, 0) SegMode.fill)
        (padImage img borders).rows (padImage img borders).cols).map
          Prod.snd) = c1)
    (hymax : listMax 0
      ((fgCells (maskOf (padImage img borders) 10 (0, 0) SegMode.fill)
        (padImage img borders).rows (padImage img borders).cols).map
          Prod.snd) = c2) :
    auto_crop img borders = Except.ok
      { rows := (r2 + borders / 2 + 1) - (r1 - borders / 2),
        cols := (c2 + borders / 2 + 1) - (c1 - borders / 2),
        pix := fun i j => (padImage img borders).pix
          (r1 - borders / 2 + i) (c1 - borders / 2 + j) } := by
  simp only [auto_crop, remove_background_snd]
  rw [if_neg hne, hxmin, hxmax, hymin, hymax]

/-- Assembly lemma for the spec-as-written autocrop. -/
theorem spec_autocrop_eval (img : Img) (border r1 r2 c1 c2 : ℕ)
    (hne : fgCells (maskOf (padImageAll img border) 10 (0, 0) SegMode.fill)
      (padImageAll img border).rows (padImageAll img border).cols ≠ [])
    (hxmin : listMin 0
      ((fgCells (maskOf (padImageAll img border) 10 (0, 0) SegMode.fill)
        (padImageAll img border).rows (padImageAll img border).cols).map
          Prod.fst) = r1)
    (hxmax : listMax 0
      ((fgCells (maskOf (padImageAll img border) 10 (0, 0) SegMode.fill)
        (padImageAll img border).rows (padImageAll img border).cols).map
          Prod.fst) = r2)
    (hymin : listMin 0
      ((fgCells (maskOf (padImageAll img border) 10 (0, 0) SegMode.fill)
        (padImageAll img border).rows (padImageAll img border).cols).map
          Prod.snd) = c1)
    (hymax : listMax 0
      ((fgCells (maskOf (padImageAll img border) 10 (0, 0) SegMode.fill)
        (padImageAll img border).rows (padImageAll img border).cols).map
          Prod.snd) = c2) :
    autocropSpecAllSides img border = Except.ok
      { rows := (r2 + border / 2 + 1) - (r1 - border / 2),
        cols := (c2 + border / 2 + 1) - (c1 - border / 2),
        pix := fun i j => (padImageAll img border).pix
          (r1 - border / 2 + i) (c1 - border / 2 + j) } := by
  simp only [autocropSpecAllSides, remove_background_snd]
  rw [if_neg ?_, hxmin, hxmax, hymin, hymax]
  exact hne

/-- On an image whose in-tolerance set is exactly the complement of a
rectangle away from the top-left corner, the flood-fill mask is exactly
that rectangle. -/
theorem maskOf_rect (img : Img) (t : ℤ) (r1 r2 c1 c2 : ℕ)
    (hr1 : 1 ≤ r1) (hc1 : 1 ≤ c1)
    (hS : ∀ i j, i < img.rows → j < img.cols →
      ¬ InRect r1 r2 c1 c2 i j → inTol img (0, 0) t i j)
    (hB : ∀ i j, i < img.rows → j < img.cols →
      InRect r1 r2 c1 c2 i j → ¬ inTol img (0, 0) t i j) :
    ∀ i j, i < img.rows → j < img.cols →
      maskOf img t (0, 0) SegMode.fill i j =
        (if InRect r1 r2 c1 c2 i j then 255 else 0) := by
  intro i j hi hj
  unfold maskOf
  dsimp only
  by_cases h : InRect r1 r2 c1 c2 i j
  · rw [if_pos h, if_neg]
    intro hre
    exact hB i j hi hj h (reachIn_inTol img (0, 0) t _ _ _ hre)
  · rw [if_neg h, if_pos]
    exact reachIn_mono _ _ _ (grid_fuel_bound _ _ i j hi hj)
      (reachIn_rect_compl img t r1 r2 c1 c2 hr1 hc1 hS i j hi hj h)

/-- Bounding box of a foreground list whose membership is exactly a
(nonempty, in-bounds) rectangle. -/
theorem cells_minmax_of_rect (cells : List (ℕ × ℕ)) (r1 r2 c1 c2 : ℕ)
    (hmem : ∀ p : ℕ × ℕ, p ∈ cells ↔ InRect r1 r2 c1 c2 p.1 p.2)
    (hler : r1 ≤ r2) (hlec : c1 ≤ c2) :
    cells ≠ [] ∧
    listMin 0 (cells.map Prod.fst) = r1 ∧
    listMax 0 (cells.map Prod.fst) = r2 ∧
    listMin 0 (cells.map Prod.snd) = c1 ∧
    listMax 0 (cells.map Prod.snd) = c2 := by
  have hm1 : ((r1 : ℕ), (c1 : ℕ)) ∈ cells :=
    (hmem (r1, c1)).mpr ⟨le_refl _, hler, le_refl _, hlec⟩
  have hm2 : ((r2 : ℕ), (c1 : ℕ)) ∈ cells :=
    (hmem (r2, c1)).mpr ⟨hler, le_refl _, le_refl _, hlec⟩
  have hm3 : ((r1 : ℕ), (c2 : ℕ)) ∈ cells :=
    (hmem (r1, c2)).mpr ⟨le_refl _, hler, hlec, le_refl _⟩
  refine ⟨List.ne_nil_of_mem hm1, ?_, ?_, ?_, ?_⟩
  · refine listMin_eq_of 0 r1 _ (List.mem_map_of_mem Prod.fst hm1) ?_
    intro x hx
    obtain ⟨p, hp, rfl⟩ := List.mem_map.mp hx
    exact ((hmem p).mp hp).1
  · refine listMax_eq_of 0 r2 _ (List.mem_map_of_mem Prod.fst hm2) ?_
    intro x hx
    obtain ⟨p, hp, rfl⟩ := List.mem_map.mp hx
    exact ((hmem p).mp hp).2.1
  · refine listMin_eq_of 0 c1 _ (List.mem_map_of_mem Prod.snd hm1) ?_
    intro x hx
    obtain ⟨p, hp, rfl⟩ := List.mem_map.mp hx
    exact ((hmem p).mp hp).2.2.1
  · refine listMax_eq_of 0 c2 _ (List.mem_map_of_mem Prod.snd hm3) ?_
    intro x hx
    obtain ⟨p, hp, rfl⟩ := List.mem_map.mp hx
    exact ((hmem p).mp hp).2.2.2

/-- Foreground membership induced by a rectangle-valued mask. -/
theorem fgCells_mem_of_rect_mask (img : Img) (t : ℤ) (r1 r2 c1 c2 : ℕ)
    (hmask : ∀ i j, i < img.rows → j < img.cols →
      maskOf img t (0, 0) SegMode.fill i j =
        (if InRect r1 r2 c1 c2 i j then 255 else 0))
    (hr2 : r2 < img.rows) (hc2 : c2 < img.cols) :
    ∀ p : ℕ × ℕ,
      p ∈ fgCells (maskOf img t (0, 0) SegMode.fill) img.rows img.cols ↔
        InRect r1 r2 c1 c2 p.1 p.2 := by
  intro p
  rw [fgCells_mem]
  constructor
  · rintro ⟨hi, hj, hm⟩
    rw [hmask p.1 p.2 hi hj] at hm
    by_contra hcon
    rw [if_neg hcon] at hm
    omega
  · intro hin
    have hi : p.1 < img.rows := by
      have := hin.2.1
      omega
    have hj : p.2 < img.cols := by
      have := hin.2.2.2
      omega
    refine ⟨hi, hj, ?_⟩
    rw [hmask p.1 p.2 hi hj, if_pos hin]

/-- Tolerance classification of an image whose pixels are `blockColor`
on a rectangle away from the corner and 255 elsewhere. -/
theorem fixture_tol_of_pix (img : Img) (r1 r2 c1 c2 : ℕ)
    (hpix : ∀ i j, i < img.rows → j < img.cols → ∀ c,
      img.pix i j c = (if InRect r1 r2 c1 c2 i j then blockColor c else 255))
    (hcorner : ¬ InRect r1 r2 c1 c2 0 0)
    (hr : 0 < img.rows) (hc : 0 < img.cols) :
    (∀ i j, i < img.rows → j < img.cols → ¬ InRect r1 r2 c1 c2 i j →
      inTol img (0, 0) 10 i j) ∧
    (∀ i j, i < img.rows → j < img.cols → InRect r1 r2 c1 c2 i j →
      ¬ inTol img (0, 0) 10 i j) := by
  have hc0 : ∀ c, img.pix 0 0 c = 255 := fun c => by
    rw [hpix 0 0 hr hc c, if_neg hcorner]
  constructor
  · intro i j hi hj hnr
    unfold inTol dist2
    dsimp only
    have hz : ∀ c : Fin 3, (img.pix i j c - img.pix 0 0 c) ^ 2 = 0 := by
      intro c
      rw [hpix i j hi hj c, if_neg hnr, hc0 c]
      ring
    rw [Finset.sum_congr rfl (fun c _ => hz c)]
    norm_num
  · intro i j hi hj hin hcon
    unfold inTol dist2 at hcon
    dsimp only at hcon
    have hv : ∀ c : Fin 3, (img.pix i j c - img.pix 0 0 c) ^ 2 =
        (blockColor c - 255) ^ 2 := by
      intro c
      rw [hpix i j hi hj c, if_pos hin, hc0 c]
    rw [Finset.sum_congr rfl (fun c _ => hv c)] at hcon
    have hsum : (∑ c : Fin 3, (blockColor c - 255) ^ 2) = 165875 := by
      decide
    rw [hsum] at hcon
    norm_num at hcon

/-- Pixels of the fixture padded with border 0. -/
theorem fix0_pix : ∀ i j, i < (padImage fixtureImg 0).rows →
    j < (padImage fixtureImg 0).cols → ∀ c,
    (padImage fixtureImg 0).pix i j c =
      (if InRect 40 59 35 64 i j then blockColor c else 255) := by
  intro i j hi hj c
  simp only [padImage, fixtureImg, InRect] at hi hj ⊢
  split_ifs <;> first | rfl | (exfalso; omega)

/-- Pixels of the fixture padded with border 10: the block moves to rows
`45..64`, columns `40..69`. -/
theorem fix10_pix : ∀ i j, i < (padImage fixtureImg 10).rows →
    j < (padImage fixtureImg 10).cols → ∀ c,
    (padImage fixtureImg 10).pix i j c =
      (if InRect 45 64 40 69 i j then blockColor c else 255) := by
  intro i j hi hj c
  simp only [padImage, fixtureImg, InRect] at hi hj ⊢
  split_ifs <;> first | rfl | (exfalso; omega)

/-- `auto_crop` of the fixture with border 0 is exactly the 20×30 block
region. -/
theorem auto_crop_fixture0 :
    auto_crop fixtureImg 0 = Except.ok
      { rows := 20, cols := 30,
        pix := fun i j => (padImage fixtureImg 0).pix (40 + i) (35 + j) } := by
  have hdr : (padImage fixtureImg 0).rows = 100 := by
    norm_num [padImage, fixtureImg]
  have hdc : (padImage fixtureImg 0).cols = 100 := by
    norm_num [padImage, fixtureImg]
  obtain ⟨hS, hB⟩ := fixture_tol_of_pix (padImage fixtureImg 0) 40 59 35 64
    fix0_pix (by decide) (by rw [hdr]; norm_num) (by rw [hdc]; norm_num)
  have hmask := maskOf_rect (padImage fixtureImg 0) 10 40 59 35 64
    (by norm_num) (by norm_num) hS hB
  have hcellmem := fgCells_mem_of_rect_mask (padImage fixtureImg 0) 10
    40 59 35 64 hmask (by rw [hdr]; norm_num) (by rw [hdc]; norm_num)
  obtain ⟨hne, hxmin, hxmax, hymin, hymax⟩ :=
    cells_minmax_of_rect _ 40 59 35 64 hcellmem (by norm_num) (by norm_num)
  have h := auto_crop_eval fixtureImg 0 40 59 35 64 hne hxmin hxmax
    hymin hymax
  rw [h]

/-- `auto_crop` of the fixture with border 10 is the block re-expanded by
5 pixels on each side: a 30×40 image. -/
theorem auto_crop_fixture10 :
    auto_crop fixtureImg 10 = Except.ok
      { rows := 30, cols := 40,
        pix := fun i j => (padImage fixtureImg 10).pix (40 + i) (35 + j) } := by
  have hdr : (padImage fixtureImg 10).rows = 110 := by
    norm_num [padImage, fixtureImg]
  have hdc : (padImage fixtureImg 10).cols = 110 := by
    norm_num [padImage, fixtureImg]
  obtain ⟨hS, hB⟩ := fixture_tol_of_pix (padImage fixtureImg 10) 45 64 40 69
    fix10_pix (by decide) (by rw [hdr]; norm_num) (by rw [hdc]; norm_num)
  have hmask := maskOf_rect (padImage fixtureImg 10) 10 45 64 40 69
    (by norm_num) (by norm_num) hS hB
  have hcellmem := fgCells_mem_of_rect_mask (padImage fixtureImg 10) 10
    45 64 40 69 hmask (by rw [hdr]; norm_num) (by rw [hdc]; norm_num)
  obtain ⟨hne, hxmin, hxmax, hymin, hymax⟩ :=
    cells_minmax_of_rect _ 45 64 40 69 hcellmem (by norm_num) (by norm_num)
  have h := auto_crop_eval fixtureImg 10 45 64 40 69 hne hxmin hxmax
    hymin hymax
  rw [h]

/-- With border 1 the source pads only below and to the right, so in the
padded counterexample image the flood from the corner is stuck at the
corner: its two neighbours are black. -/
theorem cex_code_reach : ∀ n i j,
    reachIn (padImage cexImg 1) (0, 0) 10 n i j → i = 0 ∧ j = 0 := by
  have h10 : ¬ inTol (padImage cexImg 1) (0, 0) 10 1 0 := by decide
  have h01 : ¬ inTol (padImage cexImg 1) (0, 0) 10 0 1 := by decide
  intro n
  induction n with
  | zero => intro i j h; exact h
  | succ n ih =>
      intro i j h
      rcases h with h | ⟨hi, hj, ht, hnb⟩
      · exact ih _ _ h
      · exfalso
        rcases hnb with ⟨hpos, hp⟩ | ⟨hlt, hp⟩ | ⟨hpos, hp⟩ | ⟨hlt, hp⟩
        · obtain ⟨h1, h2⟩ := ih _ _ hp
          have hi1 : i = 1 := by omega
          subst hi1; subst h2
          exact h10 ht
        · obtain ⟨h1, h2⟩ := ih _ _ hp
          omega
        · obtain ⟨h1, h2⟩ := ih _ _ hp
          have hj1 : j = 1 := by omega
          subst hj1; subst h1
          exact h01 ht
        · obtain ⟨h1, h2⟩ := ih _ _ hp
          omega

/-- The source-side mask of the padded counterexample: only the corner is
background; the white bottom/right fill strips count as foreground. -/
theorem cex_code_mask : ∀ i j,
    maskOf (padImage cexImg 1) 10 (0, 0) SegMode.fill i j =
      (if i = 0 ∧ j = 0 then 0 else 255) := by
  intro i j
  unfold maskOf
  dsimp only
  by_cases h : i = 0 ∧ j = 0
  · obtain ⟨rfl, rfl⟩ := h
    have hre : reaches (padImage cexImg 1) (0, 0) 10 0 0 :=
      reachIn_seed (padImage cexImg 1) (0, 0) 10 _
    rw [if_pos hre, if_pos ⟨rfl, rfl⟩]
  · rw [if_neg h, if_neg]
    intro hre
    exact h (cex_code_reach _ _ _ hre)

theorem cex_code_cells_mem : ∀ p : ℕ × ℕ,
    p ∈ fgCells (maskOf (padImage cexImg 1) 10 (0, 0) SegMode.fill)
        (padImage cexImg 1).rows (padImage cexImg 1).cols ↔
      p.1 < 4 ∧ p.2 < 4 ∧ ¬(p.1 = 0 ∧ p.2 = 0) := by
  intro p
  rw [fgCells_mem]
  have hdr : (padImage cexImg 1).rows = 4 := by norm_num [padImage, cexImg]
  have hdc : (padImage cexImg 1).cols = 4 := by norm_num [padImage, cexImg]
  rw [hdr, hdc, cex_code_mask p.1 p.2]
  constructor
  · rintro ⟨hi, hj, hm⟩
    refine ⟨hi, hj, ?_⟩
    intro hc
    rw [if_pos hc] at hm
    omega
  · rintro ⟨hi, hj, hc⟩
    exact ⟨hi, hj, by rw [if_neg hc]⟩

/-- The source autocrop of the counterexample returns the whole 4×4
padded image. -/
theorem cex_code_crop :
    auto_crop cexImg 1 = Except.ok
      { rows := 4, cols := 4,
        pix := fun i j => (padImage cexImg 1).pix (0 + i) (0 + j) } := by
  have hm1 : ((0 : ℕ), (1 : ℕ)) ∈ fgCells
      (maskOf (padImage cexImg 1) 10 (0, 0) SegMode.fill)
      (padImage cexImg 1).rows (padImage cexImg 1).cols :=
    (cex_code_cells_mem (0, 1)).mpr (by norm_num)
  have hm2 : ((3 : ℕ), (0 : ℕ)) ∈ fgCells
      (maskOf (padImage cexImg 1) 10 (0, 0) SegMode.fill)
      (padImage cexImg 1).rows (padImage cexImg 1).cols :=
    (cex_code_cells_mem (3, 0)).mpr (by norm_num)
  have hm3 : ((1 : ℕ), (0 : ℕ)) ∈ fgCells
      (maskOf (padImage cexImg 1) 10 (0, 0) SegMode.fill)
      (padImage cexImg 1).rows (padImage cexImg 1).cols :=
    (cex_code_cells_mem (1, 0)).mpr (by norm_num)
  have hm4 : ((0 : ℕ), (3 : ℕ)) ∈ fgCells
      (maskOf (padImage cexImg 1) 10 (0, 0) SegMode.fill)
      (padImage cexImg 1).rows (padImage cexImg 1).cols :=
    (cex_code_cells_mem (0, 3)).mpr (by norm_num)
  have hxmin : listMin 0 ((fgCells
      (maskOf (padImage cexImg 1) 10 (0, 0) SegMode.fill)
      (padImage cexImg 1).rows (padImage cexImg 1).cols).map Prod.fst) = 0 :=
    listMin_eq_of 0 0 _ (List.mem_map_of_mem Prod.fst hm1)
      (fun x _ => Nat.zero_le x)
  have hxmax : listMax 0 ((fgCells
      (maskOf (padImage cexImg 1) 10 (0, 0) SegMode.fill)
      (padImage cexImg 1).rows (padImage cexImg 1).cols).map Prod.fst) = 3 := by
    refine listMax_eq_of 0 3 _ (List.mem_map_of_mem Prod.fst hm2) ?_
    intro x hx
    obtain ⟨p, hp, rfl⟩ := List.mem_map.mp hx
    have := (cex_code_cells_mem p).mp hp
    omega
  have hymin : listMin 0 ((fgCells
      (maskOf (padImage cexImg 1) 10 (0, 0) SegMode.fill)
      (padImage cexImg 1).rows (padImage cexImg 1).cols).map Prod.snd) = 0 :=
    listMin_eq_of 0 0 _ (List.mem_map_of_mem Prod.snd hm3)
      (fun x _ => Nat.zero_le x)
  have hymax : listMax 0 ((fgCells
      (maskOf (padImage cexImg 1) 10 (0, 0) SegMode.fill)
      (padImage cexImg 1).rows (padImage cexImg 1).cols).map Prod.snd) = 3 := by
    refine listMax_eq_of 0 3 _ (List.mem_map_of_mem Prod.snd hm4) ?_
    intro x hx
    obtain ⟨p, hp, rfl⟩ := List.mem_map.mp hx
    have := (cex_code_cells_mem p).mp hp
    omega
  have h := auto_crop_eval cexImg 1 0 3 0 3 (List.ne_nil_of_mem hm1)
    hxmin hxmax hymin hymax
  rw [h]

/-- Pixels of the counterexample image padded on all sides: black is the
original 3×3 block minus its (white) top-left pixel, now at offset 1. -/
theorem cex_spec_pix : ∀ i j, i < (padImageAll cexImg 1).rows →
    j < (padImageAll cexImg 1).cols → ∀ c,
    (padImageAll cexImg 1).pix i j c =
      (if InRect 1 3 1 3 i j ∧ 3 ≤ i + j then 0 else 255) := by
  intro i j hi hj c
  simp only [padImageAll, cexImg, InRect] at hi hj ⊢
  split_ifs <;> first | rfl | (exfalso; omega) | (exfalso; simp_all)

theorem cex_spec_tol :
    (∀ i j, i < (padImageAll cexImg 1).rows →
      j < (padImageAll cexImg 1).cols →
      ¬(InRect 1 3 1 3 i j ∧ 3 ≤ i + j) →
      inTol (padImageAll cexImg 1) (0, 0) 10 i j) ∧
    (∀ i j, i < (padImageAll cexImg 1).rows →
      j < (padImageAll cexImg 1).cols →
      (InRect 1 3 1 3 i j ∧ 3 ≤ i + j) →
      ¬ inTol (padImageAll cexImg 1) (0, 0) 10 i j) := by
  have hr : 0 < (padImageAll cexImg 1).rows := by
    norm_num [padImageAll, cexImg]
  have hc : 0 < (padImageAll cexImg 1).cols := by
    norm_num [padImageAll, cexImg]
  have hc0 : ∀ c, (padImageAll cexImg 1).pix 0 0 c = 255 := fun c => by
    rw [cex_spec_pix 0 0 hr hc c, if_neg (by norm_num [InRect])]
  constructor
  · intro i j hi hj hw
    unfold inTol dist2
    dsimp only
    have hz : ∀ c : Fin 3, ((padImageAll cexImg 1).pix i j c -
        (padImageAll cexImg 1).pix 0 0 c) ^ 2 = 0 := by
      intro c
      rw [cex_spec_pix i j hi hj c, if_neg hw, hc0 c]
      ring
    rw [Finset.sum_congr rfl (fun c _ => hz c)]
    norm_num
  · intro i j hi hj hb hcon
    unfold inTol dist2 at hcon
    dsimp only at hcon
    have hv : ∀ c : Fin 3, ((padImageAll cexImg 1).pix i j c -
        (padImageAll cexImg 1).pix 0 0 c) ^ 2 = (0 - 255) ^ 2 := by
      intro c
      rw [cex_spec_pix i j hi hj c, if_pos hb, hc0 c]
    rw [Finset.sum_congr rfl (fun c _ => hv c)] at hcon
    norm_num [Fin.sum_univ_three] at hcon

/-- The spec-side mask of the counterexample: the all-sides padding keeps
the white ring connected to the corner sample, so exactly the black
pixels are foreground. -/
theorem cex_spec_mask : ∀ i j, i < (padImageAll cexImg 1).rows →
    j < (padImageAll cexImg 1).cols →
    maskOf (padImageAll cexImg 1) 10 (0, 0) SegMode.fill i j =
      (if InRect 1 3 1 3 i j ∧ 3 ≤ i + j then 255 else 0) := by
  intro i j hi hj
  unfold maskOf
  dsimp only
  by_cases h : InRect 1 3 1 3 i j ∧ 3 ≤ i + j
  · rw [if_pos h, if_neg]
    intro hre
    exact cex_spec_tol.2 i j hi hj h (reachIn_inTol _ _ _ _ _ _ hre)
  · rw [if_neg h, if_pos]
    by_cases h11 : i = 1 ∧ j = 1
    · obtain ⟨rfl, rfl⟩ := h11
      have h01 : reachIn (padImageAll cexImg 1) (0, 0) 10 1 0 1 := by
        refine Or.inr ⟨?_, ?_, ?_, ?_⟩
        · norm_num [padImageAll, cexImg]
        · norm_num [padImageAll, cexImg]
        · exact cex_spec_tol.1 0 1 (by norm_num [padImageAll, cexImg])
            (by norm_num [padImageAll, cexImg]) (by norm_num [InRect])
        · right; right; left
          exact ⟨by norm_num, ⟨rfl, rfl⟩⟩
      have h11r : reachIn (padImageAll cexImg 1) (0, 0) 10 2 1 1 := by
        refine Or.inr ⟨?_, ?_, ?_, Or.inl ⟨by norm_num, h01⟩⟩
        · norm_num [padImageAll, cexImg]
        · norm_num [padImageAll, cexImg]
        · exact cex_spec_tol.1 1 1 (by norm_num [padImageAll, cexImg])
            (by norm_num [padImageAll, cexImg]) (by norm_num [InRect])
      exact reachIn_mono _ _ _ (by norm_num [padImageAll, cexImg]) h11r
    · have hnr : ¬ InRect 1 3 1 3 i j := by
        intro hrct
        obtain ⟨a1, a2, a3, a4⟩ := hrct
        have hij : i ≠ 1 ∨ j ≠ 1 := by
          by_contra hcc
          push_neg at hcc
          exact h11 ⟨hcc.1, hcc.2⟩
        apply h
        refine ⟨⟨a1, a2, a3, a4⟩, ?_⟩
        rcases hij with hne | hne <;> omega
      exact reachIn_mono _ _ _ (grid_fuel_bound _ _ i j hi hj)
        (reachIn_rect_compl (padImageAll cexImg 1) 10 1 3 1 3 (le_refl 1)
          (le_refl 1)
          (fun a b ha hb hnr2 => cex_spec_tol.1 a b ha hb
            (fun hbk => hnr2 hbk.1)) i j hi hj hnr)

theorem cex_spec_cells_mem : ∀ p : ℕ × ℕ,
    p ∈ fgCells (maskOf (padImageAll cexImg 1) 10 (0, 0) SegMode.fill)
        (padImageAll cexImg 1).rows (padImageAll cexImg 1).cols ↔
      (InRect 1 3 1 3 p.1 p.2 ∧ 3 ≤ p.1 + p.2) := by
  intro p
  rw [fgCells_mem]
  have h5r : (padImageAll cexImg 1).rows = 5 := by
    norm_num [padImageAll, cexImg]
  have h5c : (padImageAll cexImg 1).cols = 5 := by
    norm_num [padImageAll, cexImg]
  constructor
  · rintro ⟨hi, hj, hm⟩
    rw [cex_spec_mask p.1 p.2 hi hj] at hm
    by_contra hcon
    rw [if_neg hcon] at hm
    omega
  · intro hb
    obtain ⟨⟨ha1, ha2, ha3, ha4⟩, hne⟩ := hb
    have hi : p.1 < (padImageAll cexImg 1).rows := by omega
    have hj : p.2 < (padImageAll cexImg 1).cols := by omega
    exact ⟨hi, hj,
      by rw [cex_spec_mask p.1 p.2 hi hj, if_pos ⟨⟨ha1, ha2, ha3, ha4⟩, hne⟩]⟩

/-- The spec-as-written autocrop of the counterexample returns the 3×3
original content. -/
theorem cex_spec_crop :
    autocropSpecAllSides cexImg 1 = Except.ok
      { rows := 3, cols := 3,
        pix := fun i j => (padImageAll cexImg 1).pix (1 + i) (1 + j) } := by
  have hm1 : ((1 : ℕ), (2 : ℕ)) ∈ fgCells
      (maskOf (padImageAll cexImg 1) 10 (0, 0) SegMode.fill)
      (padImageAll cexImg 1).rows (padImageAll cexImg 1).cols :=
    (cex_spec_cells_mem (1, 2)).mpr (by norm_num [InRect])
  have hm2 : ((3 : ℕ), (1 : ℕ)) ∈ fgCells
      (maskOf (padImageAll cexImg 1) 10 (0, 0) SegMode.fill)
      (padImageAll cexImg 1).rows (padImageAll cexImg 1).cols :=
    (cex_spec_cells_mem (3, 1)).mpr (by norm_num [InRect])
  have hm3 : ((2 : ℕ), (1 : ℕ)) ∈ fgCells
      (maskOf (padImageAll cexImg 1) 10 (0, 0) SegMode.fill)
      (padImageAll cexImg 1).rows (padImageAll cexImg 1).cols :=
    (cex_spec_cells_mem (2, 1)).mpr (by norm_num [InRect])
  have hm4 : ((1 : ℕ), (3 : ℕ)) ∈ fgCells
      (maskOf (padImageAll cexImg 1) 10 (0, 0) SegMode.fill)
      (padImageAll cexImg 1).rows (padImageAll cexImg 1).cols :=
    (cex_spec_cells_mem (1, 3)).mpr (by norm_num [InRect])
  have hxmin : listMin 0 ((fgCells
      (maskOf (padImageAll cexImg 1) 10 (0, 0) SegMode.fill)
      (padImageAll cexImg 1).rows (padImageAll cexImg 1).cols).map
        Prod.fst) = 1 := by
    refine listMin_eq_of 0 1 _ (List.mem_map_of_mem Prod.fst hm1) ?_
    intro x hx
    obtain ⟨p, hp, rfl⟩ := List.mem_map.mp hx
    obtain ⟨⟨ha1, _, _, _⟩, _⟩ := (cex_spec_cells_mem p).mp hp
    omega
  have hxmax : listMax 0 ((fgCells
      (maskOf (padImageAll cexImg 1) 10 (0, 0) SegMode.fill)
      (padImageAll cexImg 1).rows (padImageAll cexImg 1).cols).map
        Prod.fst) = 3 := by
    refine listMax_eq_of 0 3 _ (List.mem_map_of_mem Prod.fst hm2) ?_
    intro x hx
    obtain ⟨p, hp, rfl⟩ := List.mem_map.mp hx
    obtain ⟨⟨_, ha2, _, _⟩, _⟩ := (cex_spec_cells_mem p).mp hp
    omega
  have hymin : listMin 0 ((fgCells
      (maskOf (padImageAll cexImg 1) 10 (0, 0) SegMode.fill)
      (padImageAll cexImg 1).rows (padImageAll cexImg 1).cols).map
        Prod.snd) = 1 := by
    refine listMin_eq_of 0 1 _ (List.mem_map_of_mem Prod.snd hm3) ?_
    intro x hx
    obtain ⟨p, hp, rfl⟩ := List.mem_map.mp hx
    obtain ⟨⟨_, _, ha3, _⟩, _⟩ := (cex_spec_cells_mem p).mp hp
    omega
  have hymax : listMax 0 ((fgCells
      (maskOf (padImageAll cexImg 1) 10 (0, 0) SegMode.fill)
      (padImageAll cexImg 1).rows (padImageAll cexImg 1).cols).map
        Prod.snd) = 3 := by
    refine listMax_eq_of 0 3 _ (List.mem_map_of_mem Prod.snd hm4) ?_
    intro x hx
    obtain ⟨p, hp, rfl⟩ := List.mem_map.mp hx
    obtain ⟨⟨_, _, _, ha4⟩, _⟩ := (cex_spec_cells_mem p).mp hp
    omega
  have h := spec_autocrop_eval cexImg 1 1 3 1 3 (List.ne_nil_of_mem hm1)
    hxmin hxmax hymin hymax
  rw [h]

/-- Counterexample to C5 as stated: on a 3×3 image whose top-left pixel
is white and whose other pixels are black, with border 1, the source
(which pads by 1 pixel in total per axis, none on top/left) returns the
whole 4×4 padded image, while the algorithm described by the claim
(pad by 1 pixel on all sides) returns the 3×3 content: `auto_crop` does
not behave as the claimed algorithm. -/
theorem autocrop_pad_counterexample :
    Except.map Img.rows (auto_crop cexImg 1) = Except.ok 4 ∧
    Except.map Img.rows (autocropSpecAllSides cexImg 1) = Except.ok 3 ∧
    auto_crop cexImg 1 ≠ autocropSpecAllSides cexImg 1 := by
  refine ⟨?_, ?_, ?_⟩
  · rw [cex_code_crop]; rfl
  · rw [cex_spec_crop]; rfl
  · intro heq
    rw [cex_code_crop, cex_spec_crop] at heq
    injection heq with h
    have h43 := congrArg Img.rows h
    simp at h43

/-- C5 (amended): for every image and border, `auto_crop` pads the image
by `border` pixels in total per axis (`border//2` before the content on
each axis, the remainder after) with the corner pixel's colour, segments
the background from the top-left corner sample, computes the bounding
box of the foreground pixels, and returns the crop of that box
re-expanded by `border//2` on each side; in particular, on the 100×100
fixture with the 20×30 block of colour `(10,20,30)`, border 0 returns
exactly the 20×30 block of that colour and border 10 returns a 30×40
image. -/
theorem auto_crop_amended :
    (∀ (img : Img) (border : ℕ),
      auto_crop img border = autocropSpecFixed img border) ∧
    auto_crop fixtureImg 0 = Except.ok
      { rows := 20, cols := 30,
        pix := fun i j => (padImage fixtureImg 0).pix (40 + i) (35 + j) } ∧
    (∀ i j c, i < 20 → j < 30 →
      (padImage fixtureImg 0).pix (40 + i) (35 + j) c = blockColor c) ∧
    auto_crop fixtureImg 10 = Except.ok
      { rows := 30, cols := 40,
        pix := fun i j => (padImage fixtureImg 10).pix (40 + i) (35 + j) } := by
  refine ⟨?_, auto_crop_fixture0, ?_, auto_crop_fixture10⟩
  · intro img border
    rfl
  · intro i j c hi hj
    have hbi : 40 + i < (padImage fixtureImg 0).rows := by
      simp only [padImage, fixtureImg]
      omega
    have hbj : 35 + j < (padImage fixtureImg 0).cols := by
      simp only [padImage, fixtureImg]
      omega
    rw [fix0_pix (40 + i) (35 + j) hbi hbj c,
      if_pos (by unfold InRect; omega)]

/-- Witness for the amended C5: the refinement at a concrete input, and
a concrete pixel of the border-0 crop showing the block colour. -/
theorem auto_crop_amended_witness :
    auto_crop uniformImg 3 = autocropSpecFixed uniformImg 3 ∧
    (padImage fixtureImg 0).pix 40 35 0 = blockColor 0 :=
  ⟨auto_crop_amended.1 uniformImg 3,
   auto_crop_amended.2.2.1 0 0 0 (by norm_num) (by norm_num)⟩

end CalibrationTool
